import Mathlib

/-!
Verification of the formal-basis enumeration engine of
`nuskell/verifier/basis_finder.py`.

Species are modelled as elements of a linearly ordered type with decidable
equality (the source uses strings, compared and sorted by their standard
order).  Python lists are modelled as Lean lists; `sorted` is modelled by an
ascending sort; a reaction `[reactants, products]` is modelled as a pair of
lists; a Python function that can raise on some input returns `Option`,
with `none` modelling the exception.
-/

namespace BasisFinder

open List

variable {α : Type} [LinearOrder α]

/-- A reaction: the pair (reactants, products), the source accesses
`rxn[0]` and `rxn[1]`. -/
abbrev Rxn (α : Type) := List α × List α

/-- Python `sorted(l)`: ascending sort.  The source's sort is stable, but over
a total order on the values themselves stability is unobservable, so any
ascending sort is a faithful model. -/
def pysorted {β : Type} [LinearOrder β] (l : List β) : List β :=
  l.insertionSort (· ≤ ·)

/-- Source `formal(s, fs)` (source line 22): all formal species of the state `s`,
in order, duplicates preserved. -/
def formal (s fs : List α) : List α := s.filter (fun x => decide (x ∈ fs))

/-- Source `intermediate(s, fs)` (source line 26): all non-formal species of `s`. -/
def intermediate (s fs : List α) : List α := s.filter (fun x => decide (x ∉ fs))

/-- The loop `for x in rxn[0]: s.remove(x)` of `next_state`:
`list.remove` drops the first occurrence of `x` and raises `ValueError`
when `x` is absent, modelled as `none`. -/
def removeList (s : List α) : List α → Option (List α)
  | [] => some s
  | x :: xs => if x ∈ s then removeList (s.erase x) xs else none

/-- Source `next_state(s, rxn)` (source line 30): remove the reactants from a copy of
`s`, append the products and sort. -/
def next_state (s : List α) (rxn : Rxn α) : Option (List α) :=
  (removeList s rxn.1).map (fun c => pysorted (c ++ rxn.2))

/-- One reactant of `minimal_initial_state` (source lines 42-46): a reactant
found in the running pool `current` is consumed from it, otherwise it is
recorded as a deficit in `initial`.  The state is (initial, current). -/
def misReact (st : List α × List α) (r : α) : List α × List α :=
  if r ∈ st.2 then (st.1, st.2.erase r) else (st.1 ++ [r], st.2)

/-- One reaction of `minimal_initial_state` (source lines 41-48): process the
reactants, then append the products to `current`. -/
def misStep (st : List α × List α) (rxn : Rxn α) : List α × List α :=
  let st1 := rxn.1.foldl misReact st
  (st1.1, st1.2 ++ rxn.2)

/-- Source `minimal_initial_state(pathway)` (source line 38). -/
def minimal_initial_state (p : List (Rxn α)) : List α :=
  pysorted (p.foldl misStep ([], [])).1

/-- Source `contained_helper(a, b)` (source lines 61-69): merge-style containment
scan; called on sorted lists by `contained`. -/
def contained_helper : List α → List α → Bool
  | [], _ => true
  | _ :: _, [] => false
  | a0 :: a1, b0 :: b1 =>
    if (b0 :: b1).length < (a0 :: a1).length then false
    else if a0 = b0 then contained_helper a1 b1
    else contained_helper (a0 :: a1) b1

/-- Source `contained(a, b)` (source line 51): sort both lists and scan. -/
def contained (a b : List α) : Bool := contained_helper (pysorted a) (pysorted b)

/-- Source `final_state(p, S)` (source line 75): replay `p` from `S`; `None` when a
reactant is missing at some step; the final state is sorted. -/
def final_state : List (Rxn α) → List α → Option (List α)
  | [], S => some (pysorted S)
  | rxn :: p, S =>
    match removeList S rxn.1 with
    | none => none
    | some c => final_state p (c ++ rxn.2)

/-- One element of the loop of `setminus` (source lines 108-112): the state is
(remaining copy of b, T). -/
def smStep (st : List α × List α) (x : α) : List α × List α :=
  if x ∈ st.1 then (st.1.erase x, st.2) else (st.1, st.2 ++ [x])

/-- Source `setminus(a, b)` (source line 104): multiset difference, iterating over
`a` and consuming a private copy of `b`. -/
def setminus (a b : List α) : List α := (a.foldl smStep (b, [])).2

/-- The while loop of `remove_duplicates` (source lines 119-123), acting on
the sorted list: keep an element exactly when it differs from its successor,
and always keep the last element. -/
def rmdup_loop {β : Type} [DecidableEq β] : List β → List β
  | [] => []
  | [x] => [x]
  | x :: y :: t => if x ≠ y then x :: rmdup_loop (y :: t) else rmdup_loop (y :: t)

/-- Source `remove_duplicates(l)` (source line 115): sort (the source sorts the
argument in place with `l.sort()`), then drop adjacent duplicates. -/
def remove_duplicates {β : Type} [LinearOrder β] (l : List β) : List β :=
  if l.length = 0 then [] else rmdup_loop (pysorted l)

/-- Source `formal_state(S, fs)` (source line 126): every species of `S` is formal. -/
def formal_state (S fs : List α) : Bool := decide ((formal S fs).length = S.length)

/-! ### Basic facts about the sort -/

theorem pysorted_perm {β : Type} [LinearOrder β] (l : List β) : pysorted l ~ l :=
  List.perm_insertionSort _ l

theorem sorted_pysorted {β : Type} [LinearOrder β] (l : List β) :
    List.Sorted (· ≤ ·) (pysorted l) :=
  List.sorted_insertionSort _ l

theorem pysorted_eq_of_sorted {β : Type} [LinearOrder β] {l : List β}
    (h : List.Sorted (· ≤ ·) l) : pysorted l = l := h.insertionSort_eq

/-! ### C6: containment is exactly the pointwise count inequality -/

theorem contained_helper_iff (b a : List α) :
    contained_helper a b = true ↔ a <+ b := by
  induction b generalizing a with
  | nil =>
    cases a with
    | nil => simp [contained_helper]
    | cons a0 a1 => simp [contained_helper]
  | cons b0 b1 ih =>
    cases a with
    | nil => simp [contained_helper]
    | cons a0 a1 =>
      rw [contained_helper]
      by_cases hlen : (b0 :: b1).length < (a0 :: a1).length
      · simp only [if_pos hlen]
        constructor
        · intro h; exact absurd h (by simp)
        · intro h
          exact absurd h.length_le (by omega)
      · simp only [if_neg hlen]
        by_cases heq : a0 = b0
        · subst heq
          rw [if_pos rfl, ih]
          exact ⟨fun h => h.cons₂ a0, fun h => List.cons_sublist_cons.mp h⟩
        · rw [if_neg heq, ih]
          constructor
          · intro h; exact h.cons b0
          · intro h
            cases h with
            | cons _ h' => exact h'
            | cons₂ _ h' => exact absurd rfl heq

/-- C6 core: `contained` decides the sub-multiset relation. -/
theorem contained_iff_subperm (a b : List α) :
    contained a b = true ↔ a <+~ b := by
  rw [contained, contained_helper_iff]
  constructor
  · intro h
    have h1 : pysorted a <+~ pysorted b := h.subperm
    exact ((pysorted_perm b).subperm_left.mp ((pysorted_perm a).subperm_right.mp h1))
  · intro h
    have h1 : pysorted a <+~ pysorted b :=
      (pysorted_perm b).subperm_left.mpr ((pysorted_perm a).subperm_right.mpr h)
    exact List.sublist_of_subperm_of_sorted h1 (sorted_pysorted a) (sorted_pysorted b)

/-- C6: for all finite multisets `a` and `b` of species, `contained(a, b)`
returns true if and only if every species occurs in `a` at most as often as
it occurs in `b`. -/
theorem contained_iff_count (a b : List α) :
    contained a b = true ↔ ∀ s, a.count s ≤ b.count s := by
  rw [contained_iff_subperm]
  constructor
  · intro h s; exact h.count_le s
  · intro h
    exact List.subperm_ext_iff.mpr (fun x _ => h x)

/-! ### C1: replaying from the minimal initial state -/

/-- Repeated application of `next_state` along a pathway: the replay that the
specification describes. -/
def replay : List (Rxn α) → List α → Option (List α)
  | [], S => some S
  | rxn :: p, S => (next_state S rxn).bind (replay p)

/-- Multiset-level replay: the state reached by a pathway, tracked up to
reordering; `none` when some reactant is unavailable. -/
def mreplay : List (Rxn α) → Multiset α → Option (Multiset α)
  | [], M => some M
  | rxn :: p, M =>
    if (rxn.1 : Multiset α) ≤ M then mreplay p (M - rxn.1 + rxn.2) else none

/-- Multiset-level deficit of `minimal_initial_state`, relative to a running
pool `C`. -/
def mdef : List (Rxn α) → Multiset α → Multiset α
  | [], _ => 0
  | rxn :: p, C => (↑rxn.1 - C) + mdef p (C - ↑rxn.1 + ↑rxn.2)

/-- Multiset-level running pool of `minimal_initial_state`. -/
def mcur : List (Rxn α) → Multiset α → Multiset α
  | [], C => C
  | rxn :: p, C => mcur p (C - ↑rxn.1 + ↑rxn.2)

theorem count_coe_cons {β : Type} [DecidableEq β] (a x : β) (xs : List β) :
    Multiset.count a (↑(x :: xs) : Multiset β) =
      Multiset.count a (↑xs : Multiset β) + (if a = x then 1 else 0) := by
  rw [← Multiset.cons_coe, Multiset.count_cons]

theorem count_coe_erase {β : Type} [DecidableEq β] (a x : β) (s : List β) :
    Multiset.count a (↑(s.erase x) : Multiset β) =
      Multiset.count a (↑s : Multiset β) - (if a = x then 1 else 0) := by
  rw [← Multiset.coe_erase]
  rcases eq_or_ne a x with rfl | h
  · rw [Multiset.count_erase_self]; simp
  · rw [Multiset.count_erase_of_ne h]; simp [h]

theorem count_coe_append {β : Type} [DecidableEq β] (a : β) (s t : List β) :
    Multiset.count a (↑(s ++ t) : Multiset β) =
      Multiset.count a (↑s : Multiset β) + Multiset.count a (↑t : Multiset β) := by
  rw [← Multiset.coe_add, Multiset.count_add]

theorem removeList_some_eq_diff {rs s c : List α}
    (h : removeList s rs = some c) : c = s.diff rs := by
  induction rs generalizing s with
  | nil =>
    simp only [removeList, Option.some.injEq] at h
    rw [List.diff_nil, ← h]
  | cons x xs ih =>
    rw [removeList] at h
    by_cases hx : x ∈ s
    · rw [if_pos hx] at h
      rw [List.diff_cons]
      exact ih h
    · rw [if_neg hx] at h; exact absurd h (by simp)

theorem removeList_isSome_iff (rs s : List α) :
    (removeList s rs).isSome = true ↔ (rs : Multiset α) ≤ ↑s := by
  induction rs generalizing s with
  | nil => simp [removeList, Multiset.coe_nil]
  | cons x xs ih =>
    rw [removeList]
    by_cases hx : x ∈ s
    · rw [if_pos hx, ih]
      have hxc : 1 ≤ Multiset.count x (↑s : Multiset α) :=
        Multiset.one_le_count_iff_mem.mpr (Multiset.mem_coe.mpr hx)
      rw [Multiset.le_iff_count, Multiset.le_iff_count]
      constructor
      · intro h a
        have ha := h a
        rw [count_coe_erase] at ha
        rw [count_coe_cons]
        rcases eq_or_ne a x with rfl | hne
        · rw [if_pos rfl] at ha ⊢; omega
        · rw [if_neg hne] at ha ⊢; omega
      · intro h a
        have ha := h a
        rw [count_coe_cons] at ha
        rw [count_coe_erase]
        rcases eq_or_ne a x with rfl | hne
        · rw [if_pos rfl] at ha ⊢; omega
        · rw [if_neg hne] at ha ⊢; omega
    · rw [if_neg hx]
      simp only [Option.isSome_none, Bool.false_eq_true, false_iff]
      intro hle
      have := Multiset.le_iff_count.mp hle x
      rw [count_coe_cons, if_pos rfl] at this
      have hc0 : Multiset.count x (↑s : Multiset α) = 0 :=
        Multiset.count_eq_zero_of_not_mem (by simpa using hx)
      omega

theorem removeList_some_coe {rs s c : List α} (h : removeList s rs = some c) :
    (↑c : Multiset α) = ↑s - ↑rs := by
  rw [removeList_some_eq_diff h]
  exact (Multiset.coe_sub s rs).symm

theorem next_state_spec (s : List α) (rxn : Rxn α) :
    (next_state s rxn = none ∧ ¬ ((rxn.1 : Multiset α) ≤ ↑s)) ∨
    (∃ l, next_state s rxn = some l ∧ ((rxn.1 : Multiset α) ≤ ↑s) ∧
      (↑l : Multiset α) = ↑s - ↑rxn.1 + ↑rxn.2 ∧ List.Sorted (· ≤ ·) l) := by
  have hiff := removeList_isSome_iff rxn.1 s
  rcases h : removeList s rxn.1 with _ | c
  · left
    rw [h] at hiff
    simp only [Option.isSome_none, Bool.false_eq_true, false_iff] at hiff
    exact ⟨by rw [next_state, h]; rfl, hiff⟩
  · right
    rw [h] at hiff
    simp only [Option.isSome_some, true_iff] at hiff
    refine ⟨pysorted (c ++ rxn.2), by rw [next_state, h]; rfl, hiff, ?_, sorted_pysorted _⟩
    have h1 : (↑(pysorted (c ++ rxn.2)) : Multiset α) = ↑(c ++ rxn.2) :=
      Multiset.coe_eq_coe.mpr (pysorted_perm _)
    rw [h1, ← Multiset.coe_add, removeList_some_coe h]

theorem pysorted_eq_sort (l : List α) :
    pysorted l = Multiset.sort (· ≤ ·) (↑l : Multiset α) := by
  apply List.eq_of_perm_of_sorted ?_ (sorted_pysorted l) (Multiset.sort_sorted _ _)
  exact (pysorted_perm l).trans (Multiset.coe_eq_coe.mp (Multiset.sort_eq _ _)).symm

theorem final_state_eq_mreplay (p : List (Rxn α)) :
    ∀ s : List α,
      final_state p s = (mreplay p ↑s).map (fun M => Multiset.sort (· ≤ ·) M) := by
  induction p with
  | nil =>
    intro s
    simp only [final_state, mreplay, Option.map_some']
    rw [pysorted_eq_sort]
  | cons rxn p ih =>
    intro s
    rcases h : removeList s rxn.1 with _ | c
    · have hiff := removeList_isSome_iff rxn.1 s
      rw [h] at hiff
      simp only [Option.isSome_none, Bool.false_eq_true, false_iff] at hiff
      simp only [final_state, h, mreplay]
      rw [if_neg hiff]
      rfl
    · have hiff := removeList_isSome_iff rxn.1 s
      rw [h] at hiff
      simp only [Option.isSome_some, true_iff] at hiff
      simp only [final_state, h, mreplay]
      rw [if_pos hiff, ih (c ++ rxn.2)]
      have harg : (↑(c ++ rxn.2) : Multiset α) = ↑s - ↑rxn.1 + ↑rxn.2 := by
        rw [← Multiset.coe_add, removeList_some_coe h]
      rw [harg]

theorem replay_eq_mreplay (p : List (Rxn α)) :
    ∀ s : List α, List.Sorted (· ≤ ·) s →
      replay p s = (mreplay p ↑s).map (fun M => Multiset.sort (· ≤ ·) M) := by
  induction p with
  | nil =>
    intro s hs
    simp only [replay, mreplay, Option.map_some']
    rw [← pysorted_eq_sort, pysorted_eq_of_sorted hs]
  | cons rxn p ih =>
    intro s hs
    simp only [replay, mreplay]
    rcases next_state_spec s rxn with ⟨hn, hnle⟩ | ⟨l, hl, hle, hcoe, hsort⟩
    · rw [hn, if_neg hnle]; rfl
    · rw [hl, if_pos hle, Option.some_bind, ih l hsort, hcoe]

theorem misReact_fold (rs : List α) :
    ∀ i c : List α,
      ((rs.foldl misReact (i, c)).1 : Multiset α) = ↑i + (↑rs - ↑c) ∧
      ((rs.foldl misReact (i, c)).2 : Multiset α) = ↑c - ↑rs := by
  induction rs with
  | nil => intro i c; simp [Multiset.coe_nil, zero_tsub, tsub_zero]
  | cons x xs ih =>
    intro i c
    simp only [List.foldl_cons, misReact]
    by_cases hx : x ∈ c
    · rw [if_pos hx]
      obtain ⟨h1, h2⟩ := ih i (c.erase x)
      have hxc : 1 ≤ Multiset.count x (↑c : Multiset α) :=
        Multiset.one_le_count_iff_mem.mpr (Multiset.mem_coe.mpr hx)
      constructor
      · rw [h1]
        apply Multiset.ext.mpr
        intro a
        simp only [Multiset.count_add, Multiset.count_sub, count_coe_cons, count_coe_erase]
        rcases eq_or_ne a x with rfl | hne
        · rw [if_pos rfl]; omega
        · rw [if_neg hne]; omega
      · rw [h2]
        apply Multiset.ext.mpr
        intro a
        simp only [Multiset.count_sub, count_coe_cons, count_coe_erase]
        rcases eq_or_ne a x with rfl | hne
        · rw [if_pos rfl]; omega
        · rw [if_neg hne]; omega
    · rw [if_neg hx]
      obtain ⟨h1, h2⟩ := ih (i ++ [x]) c
      have hc0 : Multiset.count x (↑c : Multiset α) = 0 :=
        Multiset.count_eq_zero_of_not_mem (by simpa using hx)
      constructor
      · rw [h1]
        apply Multiset.ext.mpr
        intro a
        simp only [Multiset.count_add, Multiset.count_sub, count_coe_cons, count_coe_append]
        rcases eq_or_ne a x with rfl | hne
        · simp only [count_coe_cons, Multiset.coe_nil, Multiset.count_zero, eq_self_iff_true,
            if_true]
          omega
        · simp only [count_coe_cons, Multiset.coe_nil, Multiset.count_zero]
          rw [if_neg hne]; omega
      · rw [h2]
        apply Multiset.ext.mpr
        intro a
        simp only [Multiset.count_sub, count_coe_cons]
        rcases eq_or_ne a x with rfl | hne
        · rw [if_pos rfl]; omega
        · rw [if_neg hne]; omega

theorem misStep_fold (p : List (Rxn α)) :
    ∀ i c : List α,
      ((p.foldl misStep (i, c)).1 : Multiset α) = ↑i + mdef p ↑c ∧
      ((p.foldl misStep (i, c)).2 : Multiset α) = mcur p ↑c := by
  induction p with
  | nil => intro i c; simp [mdef, mcur]
  | cons rxn p ih =>
    intro i c
    simp only [List.foldl_cons, misStep]
    obtain ⟨ihr1, ihr2⟩ := misReact_fold rxn.1 i c
    obtain ⟨h1, h2⟩ :=
      ih (rxn.1.foldl misReact (i, c)).1 ((rxn.1.foldl misReact (i, c)).2 ++ rxn.2)
    constructor
    · rw [h1, ihr1, mdef]
      have harg : (↑((rxn.1.foldl misReact (i, c)).2 ++ rxn.2) : Multiset α)
          = ↑c - ↑rxn.1 + ↑rxn.2 := by
        rw [← Multiset.coe_add, ihr2]
      rw [harg, add_assoc]
    · rw [h2, mcur]
      have harg : (↑((rxn.1.foldl misReact (i, c)).2 ++ rxn.2) : Multiset α)
          = ↑c - ↑rxn.1 + ↑rxn.2 := by
        rw [← Multiset.coe_add, ihr2]
      rw [harg]

theorem minimal_initial_coe (p : List (Rxn α)) :
    (↑(minimal_initial_state p) : Multiset α) = mdef p 0 := by
  rw [minimal_initial_state, Multiset.coe_eq_coe.mpr (pysorted_perm _)]
  have := (misStep_fold p [] []).1
  simpa [Multiset.coe_nil] using this

theorem mreplay_mdef (p : List (Rxn α)) :
    ∀ C E : Multiset α, mreplay p (C + mdef p C + E) = some (mcur p C + E) := by
  induction p with
  | nil => intro C E; simp [mreplay, mdef, mcur]
  | cons rxn p ih =>
    intro C E
    simp only [mreplay, mdef, mcur]
    have hle : (↑rxn.1 : Multiset α)
        ≤ C + ((↑rxn.1 - C) + mdef p (C - ↑rxn.1 + ↑rxn.2)) + E := by
      rw [Multiset.le_iff_count]
      intro a
      simp only [Multiset.count_add, Multiset.count_sub]
      omega
    have harr : C + ((↑rxn.1 - C) + mdef p (C - ↑rxn.1 + ↑rxn.2)) + E - ↑rxn.1 + ↑rxn.2
        = (C - ↑rxn.1 + ↑rxn.2) + mdef p (C - ↑rxn.1 + ↑rxn.2) + E := by
      apply Multiset.ext.mpr
      intro a
      simp only [Multiset.count_add, Multiset.count_sub]
      omega
    rw [if_pos hle, harr]
    exact ih (C - ↑rxn.1 + ↑rxn.2) E

theorem mreplay_minimal (p : List (Rxn α)) :
    mreplay p ↑(minimal_initial_state p) = some (mcur p 0) := by
  rw [minimal_initial_coe]
  have := mreplay_mdef p 0 0
  simpa using this

/-- C1: for every pathway `p`, replaying `p` from
`minimal_initial_state(p)` by repeated `next_state` never encounters a
missing reactant and yields exactly `final_state(p, initial)`; in particular
`final_state(p, initial)` is not the infeasible marker `None`. -/
theorem replay_minimal_initial (p : List (Rxn α)) :
    replay p (minimal_initial_state p) = final_state p (minimal_initial_state p) ∧
    (final_state p (minimal_initial_state p)).isSome = true := by
  have h1 := replay_eq_mreplay p (minimal_initial_state p) (sorted_pysorted _)
  have h2 := final_state_eq_mreplay p (minimal_initial_state p)
  have h3 := mreplay_minimal p
  refine ⟨by rw [h1, h2], ?_⟩
  rw [h2, h3]
  rfl

/-! ### Deduplication lemmas -/

theorem rmdup_loop_subset {β : Type} [DecidableEq β] :
    ∀ l : List β, ∀ x ∈ rmdup_loop l, x ∈ l := by
  intro l
  induction l with
  | nil => intro x hx; simp [rmdup_loop] at hx
  | cons a t ih =>
    cases t with
    | nil => intro x hx; simpa [rmdup_loop] using hx
    | cons b t2 =>
      intro x hx
      rw [rmdup_loop] at hx
      by_cases hab : a ≠ b
      · rw [if_pos hab] at hx
        rcases List.mem_cons.mp hx with rfl | hx2
        · exact List.mem_cons_self _ _
        · exact List.mem_cons_of_mem _ (ih x hx2)
      · rw [if_neg hab] at hx
        exact List.mem_cons_of_mem _ (ih x hx)

theorem rmdup_loop_nodup {β : Type} [LinearOrder β] :
    ∀ l : List β, List.Sorted (· ≤ ·) l → (rmdup_loop l).Nodup := by
  intro l
  induction l with
  | nil => intro _; simp [rmdup_loop]
  | cons a t ih =>
    cases t with
    | nil => intro _; simp [rmdup_loop]
    | cons b t2 =>
      intro hs
      have hs2 : List.Sorted (· ≤ ·) (b :: t2) := hs.of_cons
      rw [rmdup_loop]
      by_cases hab : a ≠ b
      · rw [if_pos hab]
        refine List.nodup_cons.mpr ⟨?_, ih hs2⟩
        intro hmem
        have hxin : a ∈ b :: t2 := rmdup_loop_subset _ a hmem
        have hle : a ≤ b := (List.sorted_cons.mp hs).1 b (List.mem_cons_self _ _)
        rcases List.mem_cons.mp hxin with rfl | hin2
        · exact hab rfl
        · have hba : b ≤ a := (List.sorted_cons.mp hs2).1 a hin2
          exact absurd (lt_of_lt_of_le (lt_of_le_of_ne hle hab) hba) (lt_irrefl a)
      · rw [if_neg hab]
        exact ih hs2

theorem mem_of_mem_remove_duplicates {β : Type} [LinearOrder β] {l : List β} {x : β}
    (h : x ∈ remove_duplicates l) : x ∈ l := by
  rw [remove_duplicates] at h
  by_cases h0 : l.length = 0
  · rw [if_pos h0] at h; simp at h
  · rw [if_neg h0] at h
    exact (pysorted_perm l).mem_iff.mp (rmdup_loop_subset _ x h)

theorem remove_duplicates_nodup {β : Type} [LinearOrder β] (l : List β) :
    (remove_duplicates l).Nodup := by
  rw [remove_duplicates]
  by_cases h0 : l.length = 0
  · rw [if_pos h0]; exact List.nodup_nil
  · rw [if_neg h0]; exact rmdup_loop_nodup _ (sorted_pysorted l)

/-! ### C9: effect of the algebra operations on their arguments -/

/-- Source `formal` paired with the post-call contents of its argument: the source
builds a new list with `filter` and never writes through `s`. -/
def formal_call (s fs : List α) : List α × List α := (formal s fs, s)

/-- Source `intermediate` paired with the post-call contents of its argument: the
source builds a new list with `filter` and never writes through `s`. -/
def intermediate_call (s fs : List α) : List α × List α := (intermediate s fs, s)

/-- Source `contained` paired with the post-call contents of its arguments: the
source rebinds its local names to fresh lists built by `sorted`
(lines 71-72) and never writes through the callers' lists. -/
def contained_call (a b : List α) : Bool × (List α × List α) :=
  (contained a b, (a, b))

/-- Source `setminus` paired with the post-call contents of its arguments: the
source copies both arguments (`a = a[:]`, `b = b[:]`, lines 105-106) and
mutates only the copies. -/
def setminus_call (a b : List α) : List α × (List α × List α) :=
  (setminus a b, (a, b))

/-- Source `remove_duplicates` paired with the post-call contents of its argument:
after the empty check the source sorts the argument in place (`l.sort()`,
line 118); the later `l = l[1:]` steps only rebind the local name, so the
caller's list is left holding its sorted contents. -/
def remove_duplicates_call {β : Type} [LinearOrder β] (l : List β) :
    List β × List β :=
  if l.length = 0 then ([], l) else (rmdup_loop (pysorted l), pysorted l)

/-- C9 counterexample: `remove_duplicates` does not leave its input
unchanged: on the unsorted list [2, 1] the caller's list afterwards holds
[1, 2]. -/
theorem remove_duplicates_mutates_input :
    (remove_duplicates_call [2, 1]).2 ≠ ([2, 1] : List Nat) := by decide

/-- C9 amended: formal, intermediate, contained and setminus leave their
argument lists unchanged; remove_duplicates leaves its argument holding the
sorted contents of the input, which differs from the input whenever the
input was not already sorted. -/
theorem algebra_frame_effects {β : Type} [LinearOrder β]
    (a b s fs : List α) (l : List β) :
    (formal_call s fs).2 = s ∧ (intermediate_call s fs).2 = s ∧
    (contained_call a b).2 = (a, b) ∧ (setminus_call a b).2 = (a, b) ∧
    (remove_duplicates_call l).2 = pysorted l := by
  refine ⟨rfl, rfl, rfl, rfl, ?_⟩
  rw [remove_duplicates_call]
  by_cases h0 : l.length = 0
  · rw [if_pos h0]
    have hnil : l = [] := List.eq_nil_of_length_eq_zero h0
    subst hnil; rfl
  · rw [if_neg h0]

/-! ### C7: the formal closure -/

/-- The loop of `formal_closure` (source lines 151-154), threading the
current state `S` and the accumulator `T`; `none` models the ValueError that
`next_state` would raise on a missing reactant. -/
def fc_loop (fs : List α) : List (Rxn α) → List α → List α → Option (List α)
  | [], _, T => some (pysorted T)
  | r :: p, S, T =>
    match next_state S r with
    | none => none
    | some S1 => fc_loop fs p S1 (T ++ setminus (formal S1 fs) T)

/-- Source `formal_closure(p, fs)` (source line 147). -/
def formal_closure (p : List (Rxn α)) (fs : List α) : Option (List α) :=
  fc_loop fs p (minimal_initial_state p) (formal (minimal_initial_state p) fs)

/-- Per-species maximum (multiset union) of the formal projections of the
states visited strictly after the current one along the replay of `p`. -/
def closure_tail (fs : List α) : List (Rxn α) → List α → Multiset α
  | [], _ => 0
  | r :: p, S =>
    ↑(formal (pysorted (S.diff r.1 ++ r.2)) fs) ∪
      closure_tail fs p (pysorted (S.diff r.1 ++ r.2))

/-- Per-species maximum of the formal projections of every state of the
replay of `p` from `S`, the state `S` included. -/
def closure_states (fs : List α) (p : List (Rxn α)) (S : List α) : Multiset α :=
  ↑(formal S fs) ∪ closure_tail fs p S

theorem setminus_fold_coe (a : List α) :
    ∀ B T : List α, (((a.foldl smStep (B, T)).2 : List α) : Multiset α)
      = ↑T + (↑a - ↑B) := by
  induction a with
  | nil => intro B T; simp [Multiset.coe_nil, zero_tsub, tsub_zero]
  | cons x a ih =>
    intro B T
    simp only [List.foldl_cons, smStep]
    by_cases hx : x ∈ B
    · rw [if_pos hx, ih]
      have hxc : 1 ≤ Multiset.count x (↑B : Multiset α) :=
        Multiset.one_le_count_iff_mem.mpr (Multiset.mem_coe.mpr hx)
      apply Multiset.ext.mpr
      intro c
      simp only [Multiset.count_add, Multiset.count_sub, count_coe_cons, count_coe_erase]
      rcases eq_or_ne c x with rfl | hne
      · rw [if_pos rfl]; omega
      · rw [if_neg hne]; omega
    · rw [if_neg hx, ih]
      have hc0 : Multiset.count x (↑B : Multiset α) = 0 :=
        Multiset.count_eq_zero_of_not_mem (by simpa using hx)
      apply Multiset.ext.mpr
      intro c
      simp only [Multiset.count_add, Multiset.count_sub, count_coe_cons, count_coe_append,
        Multiset.coe_nil, Multiset.count_zero]
      rcases eq_or_ne c x with rfl | hne
      · simp only [eq_self_iff_true, if_true]; omega
      · rw [if_neg hne]; omega

theorem setminus_coe (a b : List α) :
    (↑(setminus a b) : Multiset α) = ↑a - ↑b := by
  rw [setminus, setminus_fold_coe a b []]
  simp [Multiset.coe_nil]

theorem next_state_some_eq {S S1 : List α} {r : Rxn α}
    (h : next_state S r = some S1) : S1 = pysorted (S.diff r.1 ++ r.2) := by
  rw [next_state] at h
  rcases hr : removeList S r.1 with _ | c
  · rw [hr] at h; simp at h
  · rw [hr] at h
    simp only [Option.map_some', Option.some.injEq] at h
    rw [← h, removeList_some_eq_diff hr]

theorem fc_loop_spec (fs : List α) (p : List (Rxn α)) :
    ∀ S T : List α, (mreplay p ↑S).isSome →
      ∃ l, fc_loop fs p S T = some l ∧ List.Sorted (· ≤ ·) l ∧
        (↑l : Multiset α) = ↑T ∪ closure_tail fs p S := by
  induction p with
  | nil =>
    intro S T _
    refine ⟨pysorted T, rfl, sorted_pysorted T, ?_⟩
    rw [closure_tail, Multiset.coe_eq_coe.mpr (pysorted_perm T)]
    simp
  | cons r p ih =>
    intro S T hsome
    rcases next_state_spec S r with ⟨hn, hnle⟩ | ⟨S1, hS1, hle, hcoe, _⟩
    · rw [mreplay, if_neg hnle] at hsome
      simp at hsome
    · have hs1eq := next_state_some_eq hS1
      have hsome2 : (mreplay p ↑S1).isSome := by
        rw [mreplay, if_pos hle] at hsome
        rw [hcoe]
        exact hsome
      obtain ⟨l, hl, hsort, hcoe2⟩ := ih S1 (T ++ setminus (formal S1 fs) T) hsome2
      refine ⟨l, ?_, hsort, ?_⟩
      · simp only [fc_loop, hS1]
        exact hl
      · rw [hcoe2, closure_tail, ← hs1eq]
        apply Multiset.ext.mpr
        intro c
        simp only [Multiset.count_union, count_coe_append, setminus_coe,
          Multiset.count_sub]
        omega

theorem mreplay_minimal_isSome (p : List (Rxn α)) :
    (mreplay p ↑(minimal_initial_state p)).isSome := by
  rw [mreplay_minimal]
  rfl

/-- C7 counterexample: for the pathway [A -> A + A] with A formal,
`formal_closure` returns [A, A], which contains the species A twice; so the
returned list is not in general a deduplicated set. -/
theorem formal_closure_not_dedup :
    formal_closure [([0], [0, 0])] ([0] : List Nat) = some [0, 0] ∧
    ¬ ([0, 0] : List Nat).Nodup := by decide

/-- C7 amended: `formal_closure(p, fs)` never fails and returns a sorted
list holding each formal species with multiplicity equal to the maximum
number of its simultaneous occurrences in any state of the replay of `p`
from its minimal initial state (the initial state included).  Its underlying
set is the set of all formal species ever observed, but the list is
deduplicated only when no formal species ever occurs twice at once. -/
theorem formal_closure_spec (p : List (Rxn α)) (fs : List α) :
    ∃ l, formal_closure p fs = some l ∧ List.Sorted (· ≤ ·) l ∧
      (↑l : Multiset α) = closure_states fs p (minimal_initial_state p) := by
  obtain ⟨l, hl, hsort, hcoe⟩ := fc_loop_spec fs p (minimal_initial_state p)
    (formal (minimal_initial_state p) fs) (mreplay_minimal_isSome p)
  exact ⟨l, hl, hsort, by rw [hcoe]; rfl⟩

/-! ### C5: decomposition soundness -/

/-- Identity conversion from the `Option` result of `final_state` into
`WithBot`, which carries the linear order used to sort and deduplicate the
decomposition pairs (Python 2 compares None below any list). -/
def ow (o : Option (List α)) : WithBot (List α) := o

/-- Source `helper(p1, p2, remaining, fs)` of `decompose` (source lines 130-143):
binary choice per remaining reaction, pruning as soon as one of the partial
minimal initial states fails to be formal; at a leaf with both parts
non-empty it yields the pair of final states. -/
def dec_helper (fs : List α) : List (Rxn α) → List (Rxn α) → List (Rxn α) →
    List (Lex (WithBot (List α) × WithBot (List α)))
  | p1, p2, remaining =>
    if formal_state (minimal_initial_state p1) fs = false
        ∨ formal_state (minimal_initial_state p2) fs = false then []
    else
      match remaining with
      | [] =>
        if 0 < p1.length ∧ 0 < p2.length then
          [toLex (ow (final_state p1 (minimal_initial_state p1)),
                  ow (final_state p2 (minimal_initial_state p2)))]
        else []
      | r :: rest =>
        dec_helper fs (p1 ++ [r]) p2 rest ++ dec_helper fs p1 (p2 ++ [r]) rest

/-- Source `decompose(path, fs)` (source line 129): sort the collected pairs and
remove duplicates. -/
def decompose (p : List (Rxn α)) (fs : List α) :
    List (Lex (WithBot (List α) × WithBot (List α))) :=
  remove_duplicates (pysorted (dec_helper fs [] [] p))

/-- The subsequence of a list selected by a Boolean mask; the complementary
mask (`bs.map not`) selects the complementary subsequence, so the two
together cover the list exactly once, each preserving relative order. -/
def select {γ : Type} : List γ → List Bool → List γ
  | [], _ => []
  | _ :: _, [] => []
  | x :: xs, b :: bs => if b then x :: select xs bs else select xs bs

theorem dec_helper_sound (fs : List α) :
    ∀ (remaining p1 p2 : List (Rxn α))
      (x : Lex (WithBot (List α) × WithBot (List α))),
      x ∈ dec_helper fs p1 p2 remaining →
      ∃ bs : List Bool, bs.length = remaining.length ∧
        0 < (p1 ++ select remaining bs).length ∧
        0 < (p2 ++ select remaining (bs.map not)).length ∧
        formal_state (minimal_initial_state (p1 ++ select remaining bs)) fs = true ∧
        formal_state (minimal_initial_state (p2 ++ select remaining (bs.map not))) fs
          = true ∧
        x = toLex
          (ow (final_state (p1 ++ select remaining bs)
                (minimal_initial_state (p1 ++ select remaining bs))),
           ow (final_state (p2 ++ select remaining (bs.map not))
                (minimal_initial_state (p2 ++ select remaining (bs.map not))))) := by
  intro remaining
  induction remaining with
  | nil =>
    intro p1 p2 x hx
    rw [dec_helper] at hx
    by_cases hf : formal_state (minimal_initial_state p1) fs = false
        ∨ formal_state (minimal_initial_state p2) fs = false
    · rw [if_pos hf] at hx; simp at hx
    · rw [if_neg hf] at hx
      push_neg at hf
      by_cases hlen : 0 < p1.length ∧ 0 < p2.length
      · rw [if_pos hlen] at hx
        rcases List.mem_singleton.mp hx with rfl
        refine ⟨[], rfl, ?_, ?_, ?_, ?_, ?_⟩ <;>
          simp only [select, List.map_nil, List.append_nil]
        · exact hlen.1
        · exact hlen.2
        · simpa using hf.1
        · simpa using hf.2
      · rw [if_neg hlen] at hx; simp at hx
  | cons r rest ih =>
    intro p1 p2 x hx
    rw [dec_helper] at hx
    by_cases hf : formal_state (minimal_initial_state p1) fs = false
        ∨ formal_state (minimal_initial_state p2) fs = false
    · rw [if_pos hf] at hx; simp at hx
    · rw [if_neg hf] at hx
      rcases List.mem_append.mp hx with hx1 | hx2
      · obtain ⟨bs, hlen, h1, h2, h3, h4, h5⟩ := ih (p1 ++ [r]) p2 x hx1
        refine ⟨true :: bs, by simp [hlen], ?_, ?_, ?_, ?_, ?_⟩ <;>
          simp only [select, List.map_cons, Bool.not_true, if_pos, if_neg,
            Bool.false_eq_true, ite_true, ite_false]
        · simp
        · exact h2
        · have e1 : p1 ++ r :: select rest bs = (p1 ++ [r]) ++ select rest bs := by
            simp
          rw [e1]; exact h3
        · exact h4
        · have e1 : p1 ++ r :: select rest bs = (p1 ++ [r]) ++ select rest bs := by
            simp
          rw [e1]; exact h5
      · obtain ⟨bs, hlen, h1, h2, h3, h4, h5⟩ := ih p1 (p2 ++ [r]) x hx2
        refine ⟨false :: bs, by simp [hlen], ?_, ?_, ?_, ?_, ?_⟩ <;>
          simp only [select, List.map_cons, Bool.not_false, if_pos, if_neg,
            Bool.false_eq_true, ite_true, ite_false]
        · exact h1
        · simp
        · exact h3
        · have e2 : p2 ++ r :: select rest (bs.map not) = (p2 ++ [r]) ++ select rest (bs.map not) := by
            simp
          rw [e2]; exact h4
        · have e2 : p2 ++ r :: select rest (bs.map not) = (p2 ++ [r]) ++ select rest (bs.map not) := by
            simp
          rw [e2]; exact h5

/-- C5: every element of `decompose(p, fs)` arises from a partition of `p`
into two complementary, order-preserving, non-empty subsequences whose
minimal initial states are both entirely formal, and the element is the pair
of the final states of the two parts from their minimal initial states; the
returned list is deduplicated by that pair. -/
theorem decompose_sound (p : List (Rxn α)) (fs : List α) :
    (∀ x ∈ decompose p fs, ∃ bs : List Bool, bs.length = p.length ∧
      0 < (select p bs).length ∧ 0 < (select p (bs.map not)).length ∧
      formal_state (minimal_initial_state (select p bs)) fs = true ∧
      formal_state (minimal_initial_state (select p (bs.map not))) fs = true ∧
      x = toLex
        (ow (final_state (select p bs) (minimal_initial_state (select p bs))),
         ow (final_state (select p (bs.map not))
              (minimal_initial_state (select p (bs.map not)))))) ∧
    (decompose p fs).Nodup := by
  constructor
  · intro x hx
    have hx2 : x ∈ dec_helper fs [] [] p :=
      (pysorted_perm _).mem_iff.mp (mem_of_mem_remove_duplicates hx)
    obtain ⟨bs, hlen, h1, h2, h3, h4, h5⟩ := dec_helper_sound fs p [] [] x hx2
    exact ⟨bs, hlen, by simpa using h1, by simpa using h2, by simpa using h3,
      by simpa using h4, by simpa using h5⟩
  · exact remove_duplicates_nodup _

/-! ### C2 and C10: the tidy BFS -/

/-- The projected successor used by the BFS of `tidy` (source line 324):
`intermediate(next_state(S, rxn), fs)`.  Under the guard
`contained(rxn[0], S)` the call `next_state(S, rxn)` cannot fail and equals
the sort of `S.diff rxn.1 ++ rxn.2` (lemma `contained_next_state`). -/
def tidy_succ (fs S : List α) (rxn : Rxn α) : List α :=
  intermediate (pysorted (S.diff rxn.1 ++ rxn.2)) fs

/-- Under the containment guard of `tidy`, `next_state` succeeds and its
value is the one used by `tidy_succ`. -/
theorem contained_next_state {S : List α} {rxn : Rxn α}
    (h : contained rxn.1 S = true) :
    next_state S rxn = some (pysorted (S.diff rxn.1 ++ rxn.2)) := by
  have hle : (rxn.1 : Multiset α) ≤ ↑S := by
    have hsub := (contained_iff_subperm rxn.1 S).mp h
    rw [Multiset.coe_le]
    exact hsub
  rcases next_state_spec S rxn with ⟨hn, hnle⟩ | ⟨S1, hS1, _, _, _⟩
  · exact absurd hle hnle
  · rw [hS1, next_state_some_eq hS1]

/-- The body of the inner `for rxn in crn` loop of `tidy` (source lines
322-327); the state is the pair (queue, mem). -/
def tidy_scan (fs S : List α) (qm : List (List α) × List (List α))
    (rxn : Rxn α) : List (List α) × List (List α) :=
  if 0 < rxn.1.length ∧ contained rxn.1 S = true then
    if tidy_succ fs S rxn ∈ qm.2 then qm
    else (qm.1 ++ [tidy_succ fs S rxn], qm.2 ++ [tidy_succ fs S rxn])
  else qm

/-- The while loop of `tidy` (source lines 317-327) with explicit fuel
bounding the number of iterations; `none` means the fuel ran out (the
Python loop just keeps running). -/
def tidy_loop (crn : List (Rxn α)) (fs : List α) :
    Nat → List (List α) → List (List α) → Option Bool
  | 0, _, _ => none
  | _ + 1, [], _ => some false
  | n + 1, S :: queue, mem =>
    if S.length = 0 then some true
    else
      tidy_loop crn fs n (crn.foldl (tidy_scan fs S) (queue, mem)).1
        (crn.foldl (tidy_scan fs S) (queue, mem)).2

/-- Source `tidy(S, crn, fs)` (source line 289), run for at most `n` iterations of
the BFS loop. -/
def tidy (n : Nat) (S : List α) (crn : List (Rxn α)) (fs : List α) :
    Option Bool :=
  tidy_loop crn fs n [intermediate S fs] [intermediate S fs]

/-- One step of the reachability graph of the claim: a projected state `T`
steps to `intermediate(next_state(T, rxn), fs)` for every reaction of the
CRN whose reactant multiset is non-empty and contained in `T`. -/
def TidyStep (crn : List (Rxn α)) (fs : List α) (T T1 : List α) : Prop :=
  ∃ rxn ∈ crn, 0 < rxn.1.length ∧ contained rxn.1 T = true ∧
    T1 = tidy_succ fs T rxn

/-- Reachability over intermediate-projected states. -/
def TidyReach (crn : List (Rxn α)) (fs : List α) : List α → List α → Prop :=
  Relation.ReflTransGen (TidyStep crn fs)

theorem tidy_scan_fold (fs S : List α) (rxns : List (Rxn α)) :
    ∀ q0 m0 : List (List α),
      ∃ extra : List (List α),
        (rxns.foldl (tidy_scan fs S) (q0, m0)).1 = q0 ++ extra ∧
        (rxns.foldl (tidy_scan fs S) (q0, m0)).2 = m0 ++ extra ∧
        (∀ x ∈ extra, ∃ rxn ∈ rxns, 0 < rxn.1.length ∧
          contained rxn.1 S = true ∧ x = tidy_succ fs S rxn) ∧
        (∀ rxn ∈ rxns, 0 < rxn.1.length → contained rxn.1 S = true →
          tidy_succ fs S rxn ∈ m0 ++ extra) := by
  induction rxns with
  | nil =>
    intro q0 m0
    exact ⟨[], by simp, by simp, by simp, by simp⟩
  | cons rxn0 rxns ih =>
    intro q0 m0
    simp only [List.foldl_cons, tidy_scan]
    by_cases hg : 0 < rxn0.1.length ∧ contained rxn0.1 S = true
    · rw [if_pos hg]
      by_cases hmem : tidy_succ fs S rxn0 ∈ m0
      · rw [if_pos hmem]
        obtain ⟨extra, h1, h2, h3, h4⟩ := ih q0 m0
        refine ⟨extra, h1, h2, ?_, ?_⟩
        · intro x hx
          obtain ⟨r, hr, hrl, hrc, hrx⟩ := h3 x hx
          exact ⟨r, List.mem_cons_of_mem _ hr, hrl, hrc, hrx⟩
        · intro r hr hrl hrc
          rcases List.mem_cons.mp hr with rfl | hr2
          · exact List.mem_append_left _ hmem
          · exact h4 r hr2 hrl hrc
      · rw [if_neg hmem]
        obtain ⟨extra, h1, h2, h3, h4⟩ :=
          ih (q0 ++ [tidy_succ fs S rxn0]) (m0 ++ [tidy_succ fs S rxn0])
        refine ⟨tidy_succ fs S rxn0 :: extra, ?_, ?_, ?_, ?_⟩
        · rw [h1]; simp
        · rw [h2]; simp
        · intro x hx
          rcases List.mem_cons.mp hx with rfl | hx2
          · exact ⟨rxn0, List.mem_cons_self _ _, hg.1, hg.2, rfl⟩
          · obtain ⟨r, hr, hrl, hrc, hrx⟩ := h3 x hx2
            exact ⟨r, List.mem_cons_of_mem _ hr, hrl, hrc, hrx⟩
        · intro r hr hrl hrc
          have hshape : m0 ++ tidy_succ fs S rxn0 :: extra
              = (m0 ++ [tidy_succ fs S rxn0]) ++ extra := by simp
          rcases List.mem_cons.mp hr with rfl | hr2
          · rw [hshape]
            exact List.mem_append_left _ (List.mem_append_right _ (List.mem_singleton.mpr rfl))
          · rw [hshape]
            exact h4 r hr2 hrl hrc
    · rw [if_neg hg]
      obtain ⟨extra, h1, h2, h3, h4⟩ := ih q0 m0
      refine ⟨extra, h1, h2, ?_, ?_⟩
      · intro x hx
        obtain ⟨r, hr, hrl, hrc, hrx⟩ := h3 x hx
        exact ⟨r, List.mem_cons_of_mem _ hr, hrl, hrc, hrx⟩
      · intro r hr hrl hrc
        rcases List.mem_cons.mp hr with rfl | hr2
        · exact absurd ⟨hrl, hrc⟩ hg
        · exact h4 r hr2 hrl hrc

theorem tidy_loop_true_sound (crn : List (Rxn α)) (fs : List α) (root : List α) :
    ∀ (n : Nat) (q m : List (List α)),
      (∀ T ∈ m, TidyReach crn fs root T) → (∀ T ∈ q, T ∈ m) →
      tidy_loop crn fs n q m = some true → TidyReach crn fs root [] := by
  intro n
  induction n with
  | zero => intro q m _ _ h; simp [tidy_loop] at h
  | succ n ih =>
    intro q m hm hq h
    cases q with
    | nil => simp [tidy_loop] at h
    | cons S t =>
      simp only [tidy_loop] at h
      by_cases hS : S.length = 0
      · have hSnil : S = [] := List.eq_nil_of_length_eq_zero hS
        subst hSnil
        exact hm [] (hq [] (List.mem_cons_self _ _))
      · rw [if_neg hS] at h
        obtain ⟨extra, he1, he2, he3, _⟩ := tidy_scan_fold fs S crn t m
        rw [he1, he2] at h
        have hSm : S ∈ m := hq S (List.mem_cons_self _ _)
        refine ih (t ++ extra) (m ++ extra) ?_ ?_ h
        · intro T hT
          rcases List.mem_append.mp hT with hT1 | hT2
          · exact hm T hT1
          · obtain ⟨rxn, hrxn, hl, hc, hTeq⟩ := he3 T hT2
            exact Relation.ReflTransGen.tail (hm S hSm) ⟨rxn, hrxn, hl, hc, hTeq⟩
        · intro T hT
          rcases List.mem_append.mp hT with hT1 | hT2
          · exact List.mem_append_left _ (hq T (List.mem_cons_of_mem _ hT1))
          · exact List.mem_append_right _ hT2

/-- One iteration of the while loop of `tidy`, on a configuration whose
dequeued head is a non-empty projected state. -/
def TidyIter (crn : List (Rxn α)) (fs : List α)
    (qm qm2 : List (List α) × List (List α)) : Prop :=
  ∃ S t, qm.1 = S :: t ∧ S.length ≠ 0 ∧
    qm2 = crn.foldl (tidy_scan fs S) (t, qm.2)

theorem tidy_loop_iter {crn : List (Rxn α)} {fs : List α}
    {qm qm2 : List (List α) × List (List α)} (h : TidyIter crn fs qm qm2)
    {n : Nat} {b : Bool} (h2 : tidy_loop crn fs n qm2.1 qm2.2 = some b) :
    tidy_loop crn fs (n + 1) qm.1 qm.2 = some b := by
  obtain ⟨S, t, h1, hS, hfold⟩ := h
  rw [h1]
  simp only [tidy_loop]
  rw [if_neg hS]
  rw [hfold] at h2
  exact h2

theorem tidy_loop_iters {crn : List (Rxn α)} {fs : List α}
    {qm qm2 : List (List α) × List (List α)}
    (h : Relation.ReflTransGen (TidyIter crn fs) qm qm2) :
    ∀ (n : Nat) (b : Bool), tidy_loop crn fs n qm2.1 qm2.2 = some b →
      ∃ n2, tidy_loop crn fs n2 qm.1 qm.2 = some b := by
  induction h with
  | refl => intro n b h2; exact ⟨n, h2⟩
  | tail hrest hstep ih =>
    intro n b h2
    exact ih (n + 1) b (tidy_loop_iter hstep h2)

/-- The invariant carried by the BFS: every queued state is remembered, the
empty state is still queued if it was ever remembered, and every remembered
state is either still queued or has all its successors remembered. -/
def MInv (crn : List (Rxn α)) (fs : List α) (q m : List (List α)) : Prop :=
  (∀ T ∈ q, T ∈ m) ∧ ([] ∈ m → [] ∈ q) ∧
  (∀ x ∈ m, x ∈ q ∨ ∀ y, TidyStep crn fs x y → y ∈ m)

theorem MInv_iter {crn : List (Rxn α)} {fs : List α}
    {qm qm2 : List (List α) × List (List α)} (h : TidyIter crn fs qm qm2)
    (hinv : MInv crn fs qm.1 qm.2) :
    MInv crn fs qm2.1 qm2.2 ∧ ∀ x ∈ qm.2, x ∈ qm2.2 := by
  obtain ⟨S, t, h1, hS, hfold⟩ := h
  obtain ⟨extra, he1, he2, he3, he4⟩ := tidy_scan_fold fs S crn t qm.2
  have hq2 : qm2.1 = t ++ extra := by rw [hfold]; exact he1
  have hm2 : qm2.2 = qm.2 ++ extra := by rw [hfold]; exact he2
  have hSne : S ≠ [] := fun hc => hS (by rw [hc]; rfl)
  obtain ⟨hqm, hnil, hcl⟩ := hinv
  have hmono : ∀ x ∈ qm.2, x ∈ qm2.2 := by
    intro x hx; rw [hm2]; exact List.mem_append_left _ hx
  refine ⟨⟨?_, ?_, ?_⟩, hmono⟩
  · intro T hT
    rw [hq2] at hT
    rw [hm2]
    rcases List.mem_append.mp hT with hT1 | hT2
    · exact List.mem_append_left _ (hqm T (by rw [h1]; exact List.mem_cons_of_mem _ hT1))
    · exact List.mem_append_right _ hT2
  · intro hT
    rw [hm2] at hT
    rw [hq2]
    rcases List.mem_append.mp hT with hT1 | hT2
    · have := hnil hT1
      rw [h1] at this
      rcases List.mem_cons.mp this with heq | hmemt
      · exact absurd heq.symm hSne
      · exact List.mem_append_left _ hmemt
    · exact List.mem_append_right _ hT2
  · intro x hx
    rw [hm2] at hx
    rcases List.mem_append.mp hx with hx1 | hx2
    · rcases hcl x hx1 with hxq | hxcl
      · rw [h1] at hxq
        rcases List.mem_cons.mp hxq with rfl | hxt
        · right
          intro y hy
          obtain ⟨rxn, hrxn, hl, hc, hyeq⟩ := hy
          rw [hm2, hyeq]
          exact he4 rxn hrxn hl hc
        · left
          rw [hq2]
          exact List.mem_append_left _ hxt
      · right
        intro y hy
        rw [hm2]
        exact List.mem_append_left _ (hxcl y hy)
    · left
      rw [hq2]
      exact List.mem_append_right _ hx2

theorem MInv_iters {crn : List (Rxn α)} {fs : List α}
    {qm qm2 : List (List α) × List (List α)}
    (h : Relation.ReflTransGen (TidyIter crn fs) qm qm2)
    (hinv : MInv crn fs qm.1 qm.2) :
    MInv crn fs qm2.1 qm2.2 ∧ ∀ x ∈ qm.2, x ∈ qm2.2 := by
  induction h with
  | refl => exact ⟨hinv, fun x hx => hx⟩
  | tail hrest hstep ih =>
    obtain ⟨hinv2, hmono⟩ := ih
    obtain ⟨hinv3, hmono2⟩ := MInv_iter hstep hinv2
    exact ⟨hinv3, fun x hx => hmono2 x (hmono x hx)⟩

theorem tidy_loop_finds_nil (crn : List (Rxn α)) (fs : List α) :
    ∀ (j : Nat) (q m : List (List α)), q[j]? = some [] →
      ∃ n, tidy_loop crn fs n q m = some true := by
  intro j
  induction j with
  | zero =>
    intro q m h
    cases q with
    | nil => simp at h
    | cons S t =>
      rw [List.getElem?_cons_zero, Option.some.injEq] at h
      subst h
      exact ⟨1, by simp [tidy_loop]⟩
  | succ j ih =>
    intro q m h
    cases q with
    | nil => simp at h
    | cons S t =>
      rw [List.getElem?_cons_succ] at h
      by_cases hS : S.length = 0
      · exact ⟨1, by simp [tidy_loop, hS]⟩
      · obtain ⟨extra, he1, he2, _, _⟩ := tidy_scan_fold fs S crn t m
        have hlt : j < t.length := (List.getElem?_eq_some.mp h).1
        have hq2 : ((crn.foldl (tidy_scan fs S) (t, m)).1)[j]? = some [] := by
          rw [he1, List.getElem?_append, if_pos hlt]
          exact h
        obtain ⟨n, hn⟩ := ih _ _ hq2
        refine ⟨n + 1, ?_⟩
        simp only [tidy_loop]
        rw [if_neg hS]
        exact hn

theorem tidy_loop_process (crn : List (Rxn α)) (fs : List α) :
    ∀ (j : Nat) (q m : List (List α)) (x : List α), q[j]? = some x →
      (∃ n, tidy_loop crn fs n q m = some true) ∨
      ∃ qm2, Relation.ReflTransGen (TidyIter crn fs) (q, m) qm2 ∧
        ∀ y, TidyStep crn fs x y → y ∈ qm2.2 := by
  intro j
  induction j with
  | zero =>
    intro q m x h
    cases q with
    | nil => simp at h
    | cons S t =>
      rw [List.getElem?_cons_zero, Option.some.injEq] at h
      subst h
      by_cases hS : S.length = 0
      · exact Or.inl ⟨1, by simp [tidy_loop, hS]⟩
      · right
        obtain ⟨extra, he1, he2, he3, he4⟩ := tidy_scan_fold fs S crn t m
        refine ⟨crn.foldl (tidy_scan fs S) (t, m),
          Relation.ReflTransGen.single ⟨S, t, rfl, hS, rfl⟩, ?_⟩
        intro y hy
        obtain ⟨rxn, hrxn, hl, hc, hyeq⟩ := hy
        rw [he2, hyeq]
        exact he4 rxn hrxn hl hc
  | succ j ih =>
    intro q m x h
    cases q with
    | nil => simp at h
    | cons S t =>
      rw [List.getElem?_cons_succ] at h
      by_cases hS : S.length = 0
      · exact Or.inl ⟨1, by simp [tidy_loop, hS]⟩
      · have hlt : j < t.length := (List.getElem?_eq_some.mp h).1
        obtain ⟨extra, he1, he2, he3, he4⟩ := tidy_scan_fold fs S crn t m
        have hq2 : ((crn.foldl (tidy_scan fs S) (t, m)).1)[j]? = some x := by
          rw [he1, List.getElem?_append, if_pos hlt]
          exact h
        rcases ih (crn.foldl (tidy_scan fs S) (t, m)).1
            (crn.foldl (tidy_scan fs S) (t, m)).2 x hq2 with ⟨n, hn⟩ | ⟨qm2, hiters, hmem⟩
        · left
          refine ⟨n + 1, ?_⟩
          simp only [tidy_loop]
          rw [if_neg hS]
          exact hn
        · right
          exact ⟨qm2, Relation.ReflTransGen.head ⟨S, t, rfl, hS, rfl⟩ hiters, hmem⟩

theorem tidy_loop_complete (crn : List (Rxn α)) (fs : List α) :
    ∀ x : List α, TidyReach crn fs x [] →
      ∀ q m : List (List α), x ∈ m → MInv crn fs q m →
        ∃ n, tidy_loop crn fs n q m = some true := by
  intro x hreach
  induction hreach using Relation.ReflTransGen.head_induction_on with
  | refl =>
    intro q m hx hinv
    obtain ⟨j, hj⟩ := List.mem_iff_getElem?.mp (hinv.2.1 hx)
    exact tidy_loop_finds_nil crn fs j q m hj
  | head hstep hrest ih =>
    intro q m hx hinv
    rcases hinv.2.2 _ hx with hxq | hclosed
    · obtain ⟨j, hj⟩ := List.mem_iff_getElem?.mp hxq
      rcases tidy_loop_process crn fs j q m _ hj with ⟨n, hn⟩ | ⟨qm2, hiters, hmem⟩
      · exact ⟨n, hn⟩
      · obtain ⟨hinv2, _⟩ := MInv_iters hiters hinv
        obtain ⟨n, hn⟩ := ih qm2.1 qm2.2 (hmem _ hstep) hinv2
        exact tidy_loop_iters hiters n true hn
    · exact ih q m (hclosed _ hstep) hinv

theorem tidy_true_iff_reach_core (S : List α) (crn : List (Rxn α))
    (fs : List α) :
    (∃ n, tidy n S crn fs = some true) ↔
      TidyReach crn fs (intermediate S fs) [] := by
  constructor
  · rintro ⟨n, hn⟩
    exact tidy_loop_true_sound crn fs (intermediate S fs) n _ _
      (fun T hT => by
        rcases List.mem_singleton.mp hT with rfl
        exact Relation.ReflTransGen.refl)
      (fun T hT => hT) hn
  · intro hreach
    have h := tidy_loop_complete crn fs (intermediate S fs) hreach
      [intermediate S fs] [intermediate S fs]
      (List.mem_singleton.mpr rfl)
      ⟨fun T hT => hT,
       fun hT => hT,
       fun x hx => Or.inl hx⟩
    exact h

/-- C2: `tidy(S, crn, fs)` returns true exactly when the empty state is
reachable from `intermediate(S, fs)` in the reachability graph over
intermediate-projected states; in the fuel model, the BFS returns true at
some fuel if and only if the empty state is reachable. -/
theorem tidy_true_iff_reach (S : List α) (crn : List (Rxn α)) (fs : List α) :
    (∃ n, tidy n S crn fs = some true) ↔
      TidyReach crn fs (intermediate S fs) [] :=
  tidy_true_iff_reach_core S crn fs

/-- Completing the picture of C2 for the false answer: whenever the BFS
terminates with false, the empty state is unreachable. -/
theorem tidy_false_sound (S : List α) (crn : List (Rxn α)) (fs : List α)
    (n : Nat) (h : tidy n S crn fs = some false) :
    ¬ TidyReach crn fs (intermediate S fs) [] := by
  intro hreach
  obtain ⟨n2, hn2⟩ := (tidy_true_iff_reach_core S crn fs).mpr hreach
  have hmono : ∀ (k : Nat) (q m : List (List α)) (b : Bool), tidy_loop crn fs k q m = some b →
      ∀ k2, k ≤ k2 → tidy_loop crn fs k2 q m = some b := by
    intro k
    induction k with
    | zero => intro q m b hk; simp [tidy_loop] at hk
    | succ k ih =>
      intro q m b hk k2 hle
      cases k2 with
      | zero => omega
      | succ k2 =>
        cases q with
        | nil => simpa [tidy_loop] using hk
        | cons S0 t =>
          simp only [tidy_loop] at hk ⊢
          by_cases hS0 : S0.length = 0
          · rw [if_pos hS0] at hk ⊢; exact hk
          · rw [if_neg hS0] at hk ⊢
            exact ih _ _ _ hk k2 (by omega)
  simp only [tidy] at h hn2
  rcases le_total n n2 with hle | hle
  · have h2 := hmono n _ _ _ h n2 hle
    rw [h2] at hn2
    simp at hn2
  · have h2 := hmono n2 _ _ _ hn2 n hle
    rw [h2] at h
    simp at h

/-- C10: when the state `S` contains no intermediate species, the initial
projection is empty, so the very first dequeue of the BFS returns true:
one unit of fuel suffices and no reaction is explored. -/
theorem tidy_all_formal (S : List α) (crn : List (Rxn α)) (fs : List α)
    (h : ∀ x ∈ S, x ∈ fs) : tidy 1 S crn fs = some true := by
  have hint : intermediate S fs = [] := by
    rw [intermediate, List.filter_eq_nil_iff]
    intro a ha
    simp [h a ha]
  rw [tidy, hint]
  simp [tidy_loop]

/-- C10 witness: a concrete all-formal state. -/
theorem tidy_all_formal_witness :
    tidy 1 [0, 1] [([0], [2]), ([2], [1])] ([0, 1] : List Nat) = some true :=
  tidy_all_formal [0, 1] [([0], [2]), ([2], [1])] [0, 1] (by decide)

/-! ### C8: branching statistics on an empty module -/

/-- The branching factor `b = max(max(len(r),len(p)) for [r,p] in crn)` of
`enumerate_basis` (source line 348); Python's `max` over an empty sequence
raises ValueError, modelled as `none`. -/
def branching_b (crn : List (Rxn α)) : Option Nat :=
  (crn.map (fun rxn => max rxn.1.length rxn.2.length)).max?

/-- The branching factor `bf = max(len(intermediate(r,fs)) for [r,p] in crn)`
(source line 349), with the same failure mode. -/
def branching_bf (crn : List (Rxn α)) (fs : List α) : Option Nat :=
  (crn.map (fun rxn => (intermediate rxn.1 fs).length)).max?

/-- C8: on a module with zero reactions, the branching-statistics
computation of `enumerate_basis` has no value — Python raises ValueError
from `max()` over an empty generator — instead of treating the empty module
as no work to do and returning an empty formal basis. -/
theorem branching_stats_empty_none :
    branching_b ([] : List (Rxn Nat)) = none ∧
    branching_bf ([] : List (Rxn Nat)) [] = none := by decide

/-! ### C4: the module partitioner -/

/-- Keys of the `division` dictionary of `find_modules`: an intermediate
species, or an integer key used for the reactions that touch no
intermediate (the source exploits that string keys and int keys never
collide). -/
abbrev MKey (α : Type) := α ⊕ Nat

/-- The intermediate species occurring in a reaction, in order,
duplicates preserved: `filter(lambda x: x in intermediates, rxn[0]+rxn[1])`
(source lines 430 and 441).  The caller passes `intermediates` as a set; it
is modelled as a list, whose order influences nothing below. -/
def rxn_inters (inters : List α) (rxn : Rxn α) : List α :=
  (rxn.1 ++ rxn.2).filter (fun x => decide (x ∈ inters))

/-- Source `ancestor(x)` (source lines 420-423): follow parent pointers to the
root, with fuel.  The source also performs path compression
(`parent[x] = ancestor(parent[x])`), which rewrites parent pointers of the
keys it visits but provably never changes the root of any key, so the root
function computed by the source is the one modelled here. -/
def proot (p : α → α) : Nat → α → α
  | 0, x => x
  | n + 1, x => if p x = x then x else proot p n (p x)

/-- One step of the inner union loop (source lines 435-438): union the root
of `x` into the fixed root `z` of the first intermediate of the reaction. -/
def union_one (inters : List α) (z : α) (p : α → α) (x : α) : α → α :=
  if z ≠ proot p inters.length x then
    Function.update p (proot p inters.length x) z
  else p

/-- The union phase for one reaction (source lines 429-438). -/
def union_rxn (inters : List α) (p : α → α) (rxn : Rxn α) : α → α :=
  match rxn_inters inters rxn with
  | [] => p
  | [_] => p
  | x0 :: x1 :: xs =>
    (x1 :: xs).foldl (union_one inters (proot p inters.length x0)) p

/-- The whole union phase of `find_modules`; `parent = {i: i}` is the
identity on the intermediate keys. -/
def union_phase (inters : List α) (crn : List (Rxn α)) : α → α :=
  crn.foldl (union_rxn inters) id

/-- The `division` dictionary, as an insertion-ordered association list,
initialised with an empty bucket per intermediate (source line 427). -/
def div_init (inters : List α) : List (MKey α × List (Rxn α)) :=
  inters.map (fun i => (Sum.inl i, []))

/-- Append a reaction to the bucket of key `k`, creating the bucket at the
end when the key is new: this covers both `division[z].append(rxn)` (key
present) and `division[i] = [rxn]` (fresh integer key) of lines 444-446. -/
def div_add (d : List (MKey α × List (Rxn α))) (k : MKey α) (rxn : Rxn α) :
    List (MKey α × List (Rxn α)) :=
  match d with
  | [] => [(k, [rxn])]
  | (k0, l) :: rest =>
    if k0 = k then (k0, l ++ [rxn]) :: rest else (k0, l) :: div_add rest k rxn

/-- The assignment phase for one reaction (source lines 440-447); the state
is (division, i). -/
def assign_rxn (inters : List α) (r : α → α)
    (st : List (MKey α × List (Rxn α)) × Nat) (rxn : Rxn α) :
    List (MKey α × List (Rxn α)) × Nat :=
  match rxn_inters inters rxn with
  | [] => (div_add st.1 (Sum.inr st.2) rxn, st.2 + 1)
  | x0 :: _ => (div_add st.1 (Sum.inl (r x0)) rxn, st.2)

/-- Source `find_modules(crn, intermediates)` (source line 416): union the
intermediates that co-occur in a reaction, assign every reaction to the
bucket of its first intermediate's root (a fresh integer bucket when it has
no intermediate), and return the non-empty buckets. -/
def find_modules (crn : List (Rxn α)) (inters : List α) : List (List (Rxn α)) :=
  (((crn.foldl
      (assign_rxn inters (proot (union_phase inters crn) inters.length))
      (div_init inters, 0)).1.map Prod.snd).filter
    (fun l => decide (0 < l.length)))

theorem div_add_flatten (k : MKey α) (rxn : Rxn α) :
    ∀ d : List (MKey α × List (Rxn α)),
      (↑(((div_add d k rxn).map Prod.snd).flatten) : Multiset (Rxn α))
        = ↑((d.map Prod.snd).flatten) + {rxn} := by
  intro d
  induction d with
  | nil => simp [div_add]
  | cons e rest ih =>
    obtain ⟨k0, l⟩ := e
    rw [div_add]
    by_cases hk : k0 = k
    · rw [if_pos hk]
      simp only [List.map_cons, List.flatten_cons]
      apply Multiset.ext.mpr
      intro c
      simp only [← Multiset.coe_add, Multiset.count_add, count_coe_append,
        Multiset.count_singleton]
      by_cases hc : c = rxn <;> first | (simp [hc]; omega) | (simp [hc])
    · rw [if_neg hk]
      simp only [List.map_cons, List.flatten_cons]
      apply Multiset.ext.mpr
      intro c
      have ihc := congrArg (Multiset.count c) ih
      simp only [Multiset.count_add, count_coe_append, Multiset.count_singleton] at ihc ⊢
      omega

theorem assign_fold_flatten (inters : List α) (r : α → α) :
    ∀ (crn2 : List (Rxn α)) (st : List (MKey α × List (Rxn α)) × Nat),
      (↑((((crn2.foldl (assign_rxn inters r) st).1.map Prod.snd).flatten))
          : Multiset (Rxn α))
        = ↑((st.1.map Prod.snd).flatten) + ↑crn2 := by
  intro crn2
  induction crn2 with
  | nil => intro st; simp
  | cons rxn crn2 ih =>
    intro st
    rw [List.foldl_cons]
    rw [ih]
    have hstep : (↑(((assign_rxn inters r st rxn).1.map Prod.snd).flatten)
        : Multiset (Rxn α)) = ↑((st.1.map Prod.snd).flatten) + {rxn} := by
      rw [assign_rxn]
      rcases rxn_inters inters rxn with _ | ⟨x0, xs⟩
      · exact div_add_flatten _ rxn st.1
      · exact div_add_flatten _ rxn st.1
    rw [hstep]
    apply Multiset.ext.mpr
    intro c
    simp only [Multiset.count_add, count_coe_cons, Multiset.count_singleton]
    by_cases hc : c = rxn <;> first | (simp [hc]; omega) | (simp [hc])

theorem flatten_filter_nonempty {γ : Type} :
    ∀ ls : List (List γ),
      (ls.filter (fun l => decide (0 < l.length))).flatten = ls.flatten := by
  intro ls
  induction ls with
  | nil => rfl
  | cons l ls ih =>
    by_cases hl : 0 < l.length
    · rw [List.filter_cons_of_pos (by simpa using hl), List.flatten_cons,
        List.flatten_cons, ih]
    · have hnil : l = [] := by
        cases l with
        | nil => rfl
        | cons a t => exact absurd (by simp) hl
      rw [List.filter_cons_of_neg (by simpa using hl), List.flatten_cons, ih, hnil,
        List.nil_append]

omit [LinearOrder α] in
theorem div_init_flatten (inters : List α) :
    ((div_init inters).map Prod.snd).flatten = [] := by
  induction inters with
  | nil => rfl
  | cons i t ih =>
    rw [div_init, List.map_cons, List.map_cons, List.flatten_cons, List.nil_append]
    exact ih

theorem find_modules_flatten (crn : List (Rxn α)) (inters : List α) :
    (find_modules crn inters).flatten ~ crn := by
  rw [← Multiset.coe_eq_coe, find_modules, flatten_filter_nonempty]
  rw [assign_fold_flatten]
  rw [div_init_flatten]
  simp

/-- Well-formedness of the union-find parent map: identity outside the
intermediates, intermediates map to intermediates, and no non-trivial
cycle. -/
def UFGood (inters : List α) (p : α → α) : Prop :=
  (∀ x, x ∉ inters → p x = x) ∧ (∀ x ∈ inters, p x ∈ inters) ∧
  (∀ x, p x ≠ x → ∀ k, 0 < k → p^[k] x ≠ x)

omit [LinearOrder α] in
theorem ufgood_id (inters : List α) : UFGood inters (id : α → α) :=
  ⟨fun _ _ => rfl, fun _ hx => hx, fun _ hx => absurd rfl hx⟩

omit [LinearOrder α] in
theorem iterate_mem (inters : List α) {p : α → α}
    (hmap : ∀ x ∈ inters, p x ∈ inters) :
    ∀ (k : Nat) (x : α), x ∈ inters → p^[k] x ∈ inters := by
  intro k
  induction k with
  | zero => intro x hx; simpa using hx
  | succ k ih =>
    intro x hx
    rw [Function.iterate_succ_apply]
    exact ih (p x) (hmap x hx)

theorem depth_bound (inters : List α) {p : α → α} (hg : UFGood inters p)
    (x : α) : ∃ k, k ≤ inters.length ∧ p (p^[k] x) = p^[k] x := by
  by_cases hx : x ∈ inters
  · by_contra hno
    push_neg at hno
    have key : ∀ a b : Nat, a < b → b < inters.length + 1 →
        p^[a] x = p^[b] x → False := by
      intro a b hab hb heq
      have hnra : p (p^[a] x) ≠ p^[a] x := hno a (by omega)
      have hcyc : p^[b - a] (p^[a] x) = p^[a] x := by
        rw [← Function.iterate_add_apply]
        have : b - a + a = b := by omega
        rw [this, ← heq]
      exact hg.2.2 (p^[a] x) hnra (b - a) (by omega) hcyc
    have hmapsto : ∀ i ∈ Finset.range (inters.length + 1),
        p^[i] x ∈ inters.toFinset := by
      intro i _
      rw [List.mem_toFinset]
      exact iterate_mem inters hg.2.1 i x hx
    have hcard : inters.toFinset.card < (Finset.range (inters.length + 1)).card := by
      rw [Finset.card_range]
      exact Nat.lt_succ_of_le (List.toFinset_card_le inters)
    obtain ⟨i, hi, j, hj, hij, heq⟩ :=
      Finset.exists_ne_map_eq_of_card_lt_of_maps_to hcard hmapsto
    rw [Finset.mem_range] at hi hj
    rcases hij.lt_or_lt with hlt | hlt
    · exact key i j hlt hj heq
    · exact key j i hlt hi heq.symm
  · exact ⟨0, Nat.zero_le _, by simpa using hg.1 x hx⟩

theorem proot_spec {p : α → α} :
    ∀ (n : Nat) (x : α), (∃ k, k ≤ n ∧ p (p^[k] x) = p^[k] x) →
      p (proot p n x) = proot p n x ∧ ∃ j, proot p n x = p^[j] x := by
  intro n
  induction n with
  | zero =>
    rintro x ⟨k, hk, hroot⟩
    have hk0 : k = 0 := Nat.le_zero.mp hk
    subst hk0
    simp only [Function.iterate_zero_apply] at hroot
    exact ⟨by simpa [proot] using hroot, 0, by simp [proot]⟩
  | succ n ih =>
    rintro x ⟨k, hk, hroot⟩
    rw [proot]
    by_cases hpx : p x = x
    · rw [if_pos hpx]
      exact ⟨hpx, 0, by simp⟩
    · rw [if_neg hpx]
      have hk0 : k ≠ 0 := by
        intro h
        subst h
        simp only [Function.iterate_zero_apply] at hroot
        exact hpx hroot
      obtain ⟨k2, rfl⟩ : ∃ k2, k = k2 + 1 := ⟨k - 1, by omega⟩
      have hsh : p^[k2+1] x = p^[k2] (p x) := Function.iterate_succ_apply p k2 x
      obtain ⟨h1, j, hj⟩ := ih (p x) ⟨k2, by omega, by rw [← hsh]; exact hroot⟩
      exact ⟨h1, j + 1, by rw [hj, ← Function.iterate_succ_apply]⟩

omit [LinearOrder α] in
theorem root_unique {p : α → α} {x r1 r2 : α} {k1 k2 : Nat}
    (h1 : p r1 = r1) (h2 : p r2 = r2)
    (e1 : p^[k1] x = r1) (e2 : p^[k2] x = r2) : r1 = r2 := by
  rcases Nat.le_total k1 k2 with h | h
  · obtain ⟨d, rfl⟩ : ∃ d, k2 = d + k1 := ⟨k2 - k1, by omega⟩
    rw [Function.iterate_add_apply, e1, Function.iterate_fixed h1] at e2
    exact e2
  · obtain ⟨d, rfl⟩ : ∃ d, k1 = d + k2 := ⟨k1 - k2, by omega⟩
    rw [Function.iterate_add_apply, e2, Function.iterate_fixed h2] at e1
    exact e1.symm

theorem proot_root (inters : List α) {p : α → α} (hg : UFGood inters p)
    (x : α) :
    p (proot p inters.length x) = proot p inters.length x ∧
    ∃ j, proot p inters.length x = p^[j] x :=
  proot_spec inters.length x (depth_bound inters hg x)

theorem proot_mem (inters : List α) {p : α → α}
    (hmap : ∀ x ∈ inters, p x ∈ inters) :
    ∀ (n : Nat) (x : α), x ∈ inters → proot p n x ∈ inters := by
  intro n
  induction n with
  | zero => intro x hx; simpa [proot] using hx
  | succ n ih =>
    intro x hx
    rw [proot]
    by_cases hpx : p x = x
    · rw [if_pos hpx]; exact hx
    · rw [if_neg hpx]; exact ih (p x) (hmap x hx)

theorem ufgood_update (inters : List α) {p : α → α} (hg : UFGood inters p)
    {y z : α} (hy : y ∈ inters) (hz : z ∈ inters)
    (_hry : p y = y) (hrz : p z = z) (hzy : z ≠ y) :
    UFGood inters (Function.update p y z) := by
  obtain ⟨hout, hmap, hacyc⟩ := hg
  refine ⟨?_, ?_, ?_⟩
  · intro x hx
    rw [Function.update_apply, if_neg (fun h => hx (by rw [h]; exact hy))]
    exact hout x hx
  · intro x hx
    rw [Function.update_apply]
    by_cases hxy : x = y
    · rw [if_pos hxy]; exact hz
    · rw [if_neg hxy]; exact hmap x hx
  · intro w hw k hk hcyc
    by_cases hhit : ∃ i, i < k ∧ (Function.update p y z)^[i] w = y
    · obtain ⟨i, hik, hiy⟩ := hhit
      have hz1 : (Function.update p y z)^[i+1] w = z := by
        rw [Function.iterate_succ_apply', hiy, Function.update_same]
      have hzfix : Function.update p y z z = z := by
        rw [Function.update_apply, if_neg hzy]
        exact hrz
      have hwz : w = z := by
        have hsplit : k = (k - (i + 1)) + (i + 1) := by omega
        rw [← hcyc, hsplit, Function.iterate_add_apply, hz1,
          Function.iterate_fixed hzfix]
      rw [hwz] at hw
      exact hw hzfix
    · push_neg at hhit
      have agree : ∀ i, i ≤ k → (Function.update p y z)^[i] w = p^[i] w := by
        intro i
        induction i with
        | zero => intro _; simp
        | succ i ih2 =>
          intro hik
          rw [Function.iterate_succ_apply', Function.iterate_succ_apply',
            ih2 (by omega)]
          rw [Function.update_apply, if_neg ?_]
          rw [← ih2 (by omega)]
          exact hhit i (by omega)
      have hwny : w ≠ y := by
        have := hhit 0 hk
        simpa using this
      have hpw : p w ≠ w := by
        rw [Function.update_apply, if_neg hwny] at hw
        exact hw
      have : p^[k] w = w := by
        rw [← agree k (Nat.le_refl k)]
        exact hcyc
      exact hacyc w hpw k hk this

theorem update_rootof (z : α) {p : α → α} {y : α} (hry : p y = y) :
    ∀ (k : Nat) (a r : α), p r = r → p^[k] a = r →
      ∃ j, (Function.update p y z)^[j] a = (if r = y then z else r) := by
  intro k
  induction k with
  | zero =>
    intro a r hr he
    simp only [Function.iterate_zero_apply] at he
    by_cases hay : r = y
    · refine ⟨1, ?_⟩
      rw [if_pos hay]
      simp only [Function.iterate_one]
      rw [show a = y from he.trans hay, Function.update_same]
    · refine ⟨0, ?_⟩
      rw [if_neg hay]
      simpa using he
  | succ k ih =>
    intro a r hr he
    by_cases hay : a = y
    · have hr2 : r = y := by
        rw [hay, Function.iterate_fixed hry] at he
        exact he.symm
      refine ⟨1, ?_⟩
      rw [if_pos hr2]
      simp only [Function.iterate_one]
      rw [hay, Function.update_same]
    · rw [Function.iterate_succ_apply] at he
      obtain ⟨j, hj⟩ := ih (p a) r hr he
      refine ⟨j + 1, ?_⟩
      rw [Function.iterate_succ_apply, Function.update_apply, if_neg hay]
      exact hj

theorem proot_update (inters : List α) {p : α → α} (hg : UFGood inters p)
    {y z : α} (hy : y ∈ inters) (hz : z ∈ inters)
    (hry : p y = y) (hrz : p z = z) (hzy : z ≠ y) (a : α) :
    proot (Function.update p y z) inters.length a =
      (if proot p inters.length a = y then z
       else proot p inters.length a) := by
  obtain ⟨hr, j, hj⟩ := proot_root inters hg a
  have hg2 := ufgood_update inters hg hy hz hry hrz hzy
  obtain ⟨hr2, j2, hj2⟩ := proot_root inters hg2 a
  have htr : Function.update p y z
      (if proot p inters.length a = y then z else proot p inters.length a) =
      (if proot p inters.length a = y then z else proot p inters.length a) := by
    by_cases hcase : proot p inters.length a = y
    · rw [if_pos hcase, Function.update_apply, if_neg hzy]
      exact hrz
    · rw [if_neg hcase, Function.update_apply, if_neg hcase]
      exact hr
  obtain ⟨j3, hj3⟩ := update_rootof z hry j a (proot p inters.length a) hr hj.symm
  exact root_unique hr2 htr hj2.symm hj3

theorem rxn_inters_mem (inters : List α) (rxn : Rxn α) :
    ∀ x ∈ rxn_inters inters rxn, x ∈ inters := by
  intro x hx
  rw [rxn_inters] at hx
  simp only [List.mem_filter, decide_eq_true_eq] at hx
  exact hx.2

theorem mem_rxn_inters (inters : List α) (rxn : Rxn α) (s : α) :
    s ∈ rxn_inters inters rxn ↔ s ∈ rxn.1 ++ rxn.2 ∧ s ∈ inters := by
  rw [rxn_inters]
  simp only [List.mem_filter, List.mem_append, decide_eq_true_eq]

theorem union_one_spec (inters : List α) {p : α → α} (hg : UFGood inters p)
    {z : α} (hz : z ∈ inters) (hrz : p z = z) (x : α) (hx : x ∈ inters) :
    UFGood inters (union_one inters z p x) ∧
    union_one inters z p x z = z ∧
    (∀ a, proot (union_one inters z p x) inters.length a =
      (if proot p inters.length a = proot p inters.length x then z
       else proot p inters.length a)) := by
  rw [union_one]
  by_cases heq : z = proot p inters.length x
  · rw [if_neg (not_not_intro heq)]
    refine ⟨hg, hrz, fun a => ?_⟩
    by_cases hc : proot p inters.length a = proot p inters.length x
    · rw [if_pos hc, hc, ← heq]
    · rw [if_neg hc]
  · rw [if_pos heq]
    have hy : proot p inters.length x ∈ inters := proot_mem inters hg.2.1 _ x hx
    have hry : p (proot p inters.length x) = proot p inters.length x :=
      (proot_root inters hg x).1
    refine ⟨ufgood_update inters hg hy hz hry hrz heq, ?_, ?_⟩
    · rw [Function.update_apply, if_neg heq]
      exact hrz
    · intro a
      exact proot_update inters hg hy hz hry hrz heq a

theorem union_fold_spec (inters : List α) {z : α} :
    ∀ (xs : List α) (p : α → α), UFGood inters p → z ∈ inters → p z = z →
      (∀ x ∈ xs, x ∈ inters) →
      UFGood inters (xs.foldl (union_one inters z) p) ∧
      (xs.foldl (union_one inters z) p) z = z ∧
      (∀ x ∈ xs, proot (xs.foldl (union_one inters z) p) inters.length x = z) ∧
      (∀ a b, proot p inters.length a = proot p inters.length b →
        proot (xs.foldl (union_one inters z) p) inters.length a =
          proot (xs.foldl (union_one inters z) p) inters.length b) ∧
      (∀ a, proot p inters.length a = z →
        proot (xs.foldl (union_one inters z) p) inters.length a = z) := by
  intro xs
  induction xs with
  | nil =>
    intro p hg hz hrz _
    exact ⟨hg, hrz, by simp, fun a b h => h, fun a h => h⟩
  | cons x xs ih =>
    intro p hg hz hrz hmem
    rw [List.foldl_cons]
    obtain ⟨hg1, hz1, hform⟩ :=
      union_one_spec inters hg hz hrz x (hmem x (List.mem_cons_self _ _))
    obtain ⟨hg2, hz2, hxs2, hpres2, hstay2⟩ :=
      ih (union_one inters z p x) hg1 hz hz1
        (fun a ha => hmem a (List.mem_cons_of_mem _ ha))
    refine ⟨hg2, hz2, ?_, ?_, ?_⟩
    · intro a ha
      rcases List.mem_cons.mp ha with rfl | ha2
      · refine hstay2 a ?_
        rw [hform a, if_pos rfl]
      · exact hxs2 a ha2
    · intro a b hab
      apply hpres2
      rw [hform a, hform b, hab]
    · intro a ha
      apply hstay2
      rw [hform a]
      by_cases hc : proot p inters.length a = proot p inters.length x
      · rw [if_pos hc]
      · rw [if_neg hc]
        exact ha

theorem union_rxn_spec (inters : List α) {p : α → α} (hg : UFGood inters p)
    (rxn : Rxn α) :
    UFGood inters (union_rxn inters p rxn) ∧
    (∀ a b, proot p inters.length a = proot p inters.length b →
      proot (union_rxn inters p rxn) inters.length a =
        proot (union_rxn inters p rxn) inters.length b) ∧
    (∀ x ∈ rxn_inters inters rxn, ∀ y2 ∈ rxn_inters inters rxn,
      proot (union_rxn inters p rxn) inters.length x =
        proot (union_rxn inters p rxn) inters.length y2) := by
  rcases hmatch : rxn_inters inters rxn with _ | ⟨x0, _ | ⟨x1, xs⟩⟩
  · have hred : union_rxn inters p rxn = p := by
      rw [union_rxn, hmatch]
    rw [hred]
    exact ⟨hg, fun a b h => h, by simp⟩
  · have hred : union_rxn inters p rxn = p := by
      rw [union_rxn, hmatch]
    rw [hred]
    refine ⟨hg, fun a b h => h, ?_⟩
    intro x hx y2 hy2
    rcases List.mem_singleton.mp hx with rfl
    rcases List.mem_singleton.mp hy2 with rfl
    rfl
  · have hx0 : x0 ∈ inters :=
      rxn_inters_mem inters rxn x0 (by rw [hmatch]; exact List.mem_cons_self _ _)
    have hz : proot p inters.length x0 ∈ inters := proot_mem inters hg.2.1 _ x0 hx0
    have hrz : p (proot p inters.length x0) = proot p inters.length x0 :=
      (proot_root inters hg x0).1
    have hmem : ∀ x ∈ x1 :: xs, x ∈ inters := by
      intro x hx
      exact rxn_inters_mem inters rxn x (by rw [hmatch]; exact List.mem_cons_of_mem _ hx)
    obtain ⟨hg2, _, hmembers, hpres2, hstay2⟩ :=
      union_fold_spec inters (x1 :: xs) p hg hz hrz hmem
    have hred : union_rxn inters p rxn
        = (x1 :: xs).foldl (union_one inters (proot p inters.length x0)) p := by
      rw [union_rxn, hmatch]
    rw [hred]
    refine ⟨hg2, hpres2, ?_⟩
    have hall : ∀ x ∈ x0 :: x1 :: xs,
        proot ((x1 :: xs).foldl (union_one inters (proot p inters.length x0)) p)
          inters.length x = proot p inters.length x0 := by
      intro x hx
      rcases List.mem_cons.mp hx with rfl | hx2
      · exact hstay2 x rfl
      · exact hmembers x hx2
    intro x hx y2 hy2
    rw [hall x hx, hall y2 hy2]

theorem union_phase_fold_spec (inters : List α) :
    ∀ (crn2 : List (Rxn α)) (p : α → α), UFGood inters p →
      UFGood inters (crn2.foldl (union_rxn inters) p) ∧
      (∀ a b, proot p inters.length a = proot p inters.length b →
        proot (crn2.foldl (union_rxn inters) p) inters.length a =
          proot (crn2.foldl (union_rxn inters) p) inters.length b) ∧
      (∀ rxn ∈ crn2, ∀ x ∈ rxn_inters inters rxn, ∀ y2 ∈ rxn_inters inters rxn,
        proot (crn2.foldl (union_rxn inters) p) inters.length x =
          proot (crn2.foldl (union_rxn inters) p) inters.length y2) := by
  intro crn2
  induction crn2 with
  | nil => intro p hg; exact ⟨hg, fun a b h => h, by simp⟩
  | cons rxn crn2 ih =>
    intro p hg
    rw [List.foldl_cons]
    obtain ⟨hg1, hpres1, hrxn1⟩ := union_rxn_spec inters hg rxn
    obtain ⟨hg2, hpres2, hrxn2⟩ := ih (union_rxn inters p rxn) hg1
    refine ⟨hg2, fun a b h => hpres2 a b (hpres1 a b h), ?_⟩
    intro r hr x hx y2 hy2
    rcases List.mem_cons.mp hr with rfl | hr2
    · exact hpres2 x y2 (hrxn1 x hx y2 hy2)
    · exact hrxn2 r hr2 x hx y2 hy2

theorem union_phase_cong (inters : List α) (crn : List (Rxn α)) :
    UFGood inters (union_phase inters crn) ∧
    ∀ rxn ∈ crn, ∀ x ∈ rxn_inters inters rxn, ∀ y2 ∈ rxn_inters inters rxn,
      proot (union_phase inters crn) inters.length x =
        proot (union_phase inters crn) inters.length y2 := by
  obtain ⟨hg, _, hc⟩ := union_phase_fold_spec inters crn id (ufgood_id inters)
  exact ⟨hg, hc⟩

/-- The per-bucket invariant of the division dictionary: an
intermediate-keyed bucket holds only reactions all of whose intermediates
have that key as union-find root; an integer-keyed bucket holds only
reactions without intermediates. -/
def BucketOK (inters : List α) (r : α → α) (k : MKey α) (rxn : Rxn α) : Prop :=
  match k with
  | Sum.inl z => ∀ s ∈ rxn_inters inters rxn, r s = z
  | Sum.inr _ => rxn_inters inters rxn = []

theorem div_add_key_mem {k : MKey α} {rxn : Rxn α} :
    ∀ d : List (MKey α × List (Rxn α)), ∀ e ∈ div_add d k rxn,
      e.1 = k ∨ ∃ e0 ∈ d, e.1 = e0.1 := by
  intro d
  induction d with
  | nil =>
    intro e he
    rw [div_add] at he
    rcases List.mem_singleton.mp he with rfl
    exact Or.inl rfl
  | cons e0 rest ih =>
    obtain ⟨k0, l⟩ := e0
    intro e he
    rw [div_add] at he
    by_cases hk : k0 = k
    · rw [if_pos hk] at he
      rcases List.mem_cons.mp he with rfl | he2
      · exact Or.inr ⟨(k0, l), List.mem_cons_self _ _, rfl⟩
      · exact Or.inr ⟨e, List.mem_cons_of_mem _ he2, rfl⟩
    · rw [if_neg hk] at he
      rcases List.mem_cons.mp he with rfl | he2
      · exact Or.inr ⟨(k0, l), List.mem_cons_self _ _, rfl⟩
      · rcases ih e he2 with h | ⟨e1, he1, hee⟩
        · exact Or.inl h
        · exact Or.inr ⟨e1, List.mem_cons_of_mem _ he1, hee⟩

theorem div_add_pairwise {k : MKey α} {rxn : Rxn α} :
    ∀ d : List (MKey α × List (Rxn α)),
      d.Pairwise (fun e1 e2 => e1.1 ≠ e2.1) →
      (div_add d k rxn).Pairwise (fun e1 e2 => e1.1 ≠ e2.1) := by
  intro d
  induction d with
  | nil => intro _; simp [div_add]
  | cons e0 rest ih =>
    obtain ⟨k0, l⟩ := e0
    intro hp
    rw [List.pairwise_cons] at hp
    obtain ⟨hhead, hrest⟩ := hp
    rw [div_add]
    by_cases hk : k0 = k
    · rw [if_pos hk, List.pairwise_cons]
      exact ⟨fun e he => hhead e he, hrest⟩
    · rw [if_neg hk, List.pairwise_cons]
      refine ⟨?_, ih hrest⟩
      intro e he
      rcases div_add_key_mem rest e he with h | ⟨e1, he1, hee⟩
      · rw [h]; exact hk
      · rw [hee]; exact hhead e1 he1

theorem div_add_buckets {inters : List α} {r : α → α} {k : MKey α}
    {rxn : Rxn α} (hok : BucketOK inters r k rxn) :
    ∀ d : List (MKey α × List (Rxn α)),
      (∀ e ∈ d, ∀ rx ∈ e.2, BucketOK inters r e.1 rx) →
      ∀ e ∈ div_add d k rxn, ∀ rx ∈ e.2, BucketOK inters r e.1 rx := by
  intro d
  induction d with
  | nil =>
    intro _ e he rx hrx
    rw [div_add] at he
    rcases List.mem_singleton.mp he with rfl
    rcases List.mem_singleton.mp hrx with rfl
    exact hok
  | cons e0 rest ih =>
    obtain ⟨k0, l⟩ := e0
    intro hall e he rx hrx
    rw [div_add] at he
    by_cases hk : k0 = k
    · rw [if_pos hk] at he
      rcases List.mem_cons.mp he with rfl | he2
      · rcases List.mem_append.mp hrx with h1 | h2
        · exact hall (k0, l) (List.mem_cons_self _ _) rx h1
        · rcases List.mem_singleton.mp h2 with rfl
          show BucketOK inters r k0 rx
          rw [hk]
          exact hok
      · exact hall e (List.mem_cons_of_mem _ he2) rx hrx
    · rw [if_neg hk] at he
      rcases List.mem_cons.mp he with rfl | he2
      · exact hall (k0, l) (List.mem_cons_self _ _) rx hrx
      · exact ih
          (fun e2 he2b rx2 hrx2 => hall e2 (List.mem_cons_of_mem _ he2b) rx2 hrx2)
          e he2 rx hrx

theorem assign_fold_inv (inters : List α) (r : α → α) (crnAll : List (Rxn α))
    (hcong : ∀ rxn ∈ crnAll, ∀ x ∈ rxn_inters inters rxn,
      ∀ y2 ∈ rxn_inters inters rxn, r x = r y2) :
    ∀ (crn2 : List (Rxn α)) (st : List (MKey α × List (Rxn α)) × Nat),
      (∀ rxn ∈ crn2, rxn ∈ crnAll) →
      st.1.Pairwise (fun e1 e2 => e1.1 ≠ e2.1) →
      (∀ e ∈ st.1, ∀ rx ∈ e.2, BucketOK inters r e.1 rx) →
      ((crn2.foldl (assign_rxn inters r) st).1.Pairwise
        (fun e1 e2 => e1.1 ≠ e2.1)) ∧
      (∀ e ∈ (crn2.foldl (assign_rxn inters r) st).1, ∀ rx ∈ e.2,
        BucketOK inters r e.1 rx) := by
  intro crn2
  induction crn2 with
  | nil => intro st _ hp hb; exact ⟨hp, hb⟩
  | cons rxn crn2 ih =>
    intro st hsub hp hb
    rw [List.foldl_cons]
    rcases hm : rxn_inters inters rxn with _ | ⟨x0, xs⟩
    · have hred : assign_rxn inters r st rxn
          = (div_add st.1 (Sum.inr st.2) rxn, st.2 + 1) := by
        rw [assign_rxn, hm]
      rw [hred]
      refine ih _ (fun rx hrx => hsub rx (List.mem_cons_of_mem _ hrx)) ?_ ?_
      · exact div_add_pairwise st.1 hp
      · refine div_add_buckets ?_ st.1 hb
        show rxn_inters inters rxn = []
        exact hm
    · have hred : assign_rxn inters r st rxn
          = (div_add st.1 (Sum.inl (r x0)) rxn, st.2) := by
        rw [assign_rxn, hm]
      rw [hred]
      refine ih _ (fun rx hrx => hsub rx (List.mem_cons_of_mem _ hrx)) ?_ ?_
      · exact div_add_pairwise st.1 hp
      · refine div_add_buckets ?_ st.1 hb
        show ∀ s ∈ rxn_inters inters rxn, r s = r x0
        intro s hs
        exact hcong rxn (hsub rxn (List.mem_cons_self _ _)) s hs x0
          (by rw [hm]; exact List.mem_cons_self _ _)

omit [LinearOrder α] in
theorem div_init_pairwise (inters : List α) (hint : inters.Nodup) :
    (div_init inters).Pairwise
      (fun e1 e2 : MKey α × List (Rxn α) => e1.1 ≠ e2.1) := by
  rw [div_init, List.pairwise_map]
  exact hint.imp (fun h hc => h (Sum.inl.inj hc))

theorem div_init_buckets (inters : List α) (r : α → α) :
    ∀ e ∈ div_init inters, ∀ rx ∈ e.2, BucketOK inters r e.1 rx := by
  intro e he rx hrx
  rw [div_init] at he
  obtain ⟨i, _, rfl⟩ := List.mem_map.mp he
  simp at hrx

theorem find_modules_no_shared (crn : List (Rxn α)) (inters : List α)
    (hint : inters.Nodup) :
    (find_modules crn inters).Pairwise (fun m1 m2 => ∀ s ∈ inters,
      (∃ rxn ∈ m1, s ∈ rxn.1 ++ rxn.2) →
        ¬ ∃ rxn ∈ m2, s ∈ rxn.1 ++ rxn.2) := by
  obtain ⟨hg, hcong⟩ := union_phase_cong inters crn
  obtain ⟨hp, hb⟩ := assign_fold_inv inters
    (proot (union_phase inters crn) inters.length) crn hcong crn
    (div_init inters, 0) (fun rx hrx => hrx) (div_init_pairwise inters hint)
    (div_init_buckets inters _)
  rw [find_modules]
  refine List.Pairwise.filter _ ?_
  rw [List.pairwise_map]
  refine hp.imp_of_mem ?_
  intro e1 e2 he1 he2 hne s hs h1 h2
  obtain ⟨rxn1, hr1, hsr1⟩ := h1
  obtain ⟨rxn2, hr2, hsr2⟩ := h2
  have hin1 : s ∈ rxn_inters inters rxn1 :=
    (mem_rxn_inters inters rxn1 s).mpr ⟨hsr1, hs⟩
  have hin2 : s ∈ rxn_inters inters rxn2 :=
    (mem_rxn_inters inters rxn2 s).mpr ⟨hsr2, hs⟩
  have hb1 := hb e1 he1 rxn1 hr1
  have hb2 := hb e2 he2 rxn2 hr2
  rcases hk1 : e1.1 with z1 | j1
  · rcases hk2 : e2.1 with z2 | j2
    · rw [hk1] at hb1
      rw [hk2] at hb2
      have hz1 := hb1 s hin1
      have hz2 := hb2 s hin2
      apply hne
      rw [hk1, hk2, ← hz1, ← hz2]
    · rw [hk2] at hb2
      rw [hb2] at hin2
      simp at hin2
  · rw [hk1] at hb1
    rw [hb1] at hin1
    simp at hin1

/-- C4: under the data model of the specification (a CRN is a collection of
structurally deduplicated reactions and the intermediates form a set),
`find_modules(crn, intermediates)` returns modules that are pairwise
disjoint in the reactions they contain, whose union as a multiset of
reactions equals `crn`, and no intermediate species occurs in reactions of
two distinct modules. -/
theorem find_modules_partition (crn : List (Rxn α)) (inters : List α)
    (hcrn : crn.Nodup) (hint : inters.Nodup) :
    (find_modules crn inters).flatten ~ crn ∧
    (find_modules crn inters).Pairwise List.Disjoint ∧
    (find_modules crn inters).Pairwise (fun m1 m2 => ∀ s ∈ inters,
      (∃ rxn ∈ m1, s ∈ rxn.1 ++ rxn.2) →
        ¬ ∃ rxn ∈ m2, s ∈ rxn.1 ++ rxn.2) := by
  refine ⟨find_modules_flatten crn inters, ?_,
    find_modules_no_shared crn inters hint⟩
  have hnd : (find_modules crn inters).flatten.Nodup :=
    ((find_modules_flatten crn inters).symm).nodup hcrn
  exact (List.nodup_flatten.mp hnd).2

/-- C4 witness: a concrete CRN with one intermediate-connected module and
one formal-only reaction. -/
theorem find_modules_partition_witness :
    (find_modules [([0],[10]),([10],[1]),([2],[3])] ([10] : List Nat)).flatten
      ~ [([0],[10]),([10],[1]),([2],[3])] ∧
    (find_modules [([0],[10]),([10],[1]),([2],[3])]
      ([10] : List Nat)).Pairwise List.Disjoint ∧
    (find_modules [([0],[10]),([10],[1]),([2],[3])] ([10] : List Nat)).Pairwise
      (fun m1 m2 => ∀ s ∈ ([10] : List Nat),
        (∃ rxn ∈ m1, s ∈ rxn.1 ++ rxn.2) →
          ¬ ∃ rxn ∈ m2, s ∈ rxn.1 ++ rxn.2) :=
  find_modules_partition _ _ (by decide) (by decide)

end BasisFinder
